import Mathlib

/-!
# Verification of the `pullrequest-init` synchronization engine

Shallow embedding of the pull-request download/upload helper
(`cmd/pullrequest-init`): the URL resolution performed at handler
construction (`NewGitHubHandler`), the snapshot writer (`Download`), and the
reconciler (`Upload`), together with a model of the provider state the
handler drives (pull request, issue comments, labels).

Modelling conventions:
* Go `int64`/`int` values are modelled as `Int` (arithmetic on identifiers
  never overflows in the embedded code paths; `strconv.Atoi`'s 64-bit range
  check is modelled explicitly in `goAtoi`).
* Go slices are modelled as `GoSlice α := Option (List α)`: `none` is the
  nil slice (JSON `null`), `some l` a non-nil slice (JSON array).  `range`
  and `len` over a nil slice behave as over the empty list, hence the
  `·.getD []` reads on the upload path.
* The filesystem is a map from path strings to file contents; JSON
  round-tripping of a written value is the identity, so a file holds the
  written payload itself.
* Each GitHub API mutation is recorded as a `Call`; a run yields the trace
  of issued calls, the provider state after the successfully applied calls,
  and the failing call (if any).  `Go` map iteration order over leftover
  desired comments is unspecified; the model uses insertion order.
-/

namespace PRInit

/-! ## Strings: splitting and number parsing (Go `strings.Split`, `strconv.Atoi`) -/

/-- `strings.Split(s, sep)` for a one-character separator, on character
lists.  Always returns at least one (possibly empty) group. -/
def splitChar (sep : Char) : List Char → List (List Char)
  | [] => [[]]
  | c :: rest =>
    let r := splitChar sep rest
    if c = sep then [] :: r
    else
      match r with
      | [] => [[c]]
      | g :: gs => (c :: g) :: gs

/-- `strings.Split(path, "/")` as used by the URL resolvers. -/
def goSplitSlash (s : String) : List String :=
  (splitChar '/' s.toList).map (fun cs => String.mk cs)

/-- Characters after the first `"://"` occurrence, if any. -/
def afterSchemeSep : List Char → Option (List Char)
  | [] => none
  | ':' :: '/' :: '/' :: rest => some rest
  | _ :: rest => afterSchemeSep rest

/-- Characters from the first `'/'` onwards (drops the host). -/
def pathFrom : List Char → List Char
  | [] => []
  | '/' :: rest => '/' :: rest
  | _ :: rest => pathFrom rest

/-- The `Path` component that `net/url.Parse` yields for the inputs the
resolvers receive: for `scheme://host/p...` the `/p...` part, for a
scheme-less string the string itself. -/
def goURLPath (raw : String) : String :=
  match afterSchemeSep raw.toList with
  | none => raw
  | some after => String.mk (pathFrom after)

/-- Digit-string to `Nat`: `some` exactly on non-empty all-ASCII-digit
input. -/
def atoiCore (cs : List Char) : Option Nat :=
  if cs = [] then none
  else if cs.all (fun c => c.isDigit) then
    some (cs.foldl (fun a c => a * 10 + (c.toNat - 48)) 0)
  else none

/-- `strconv.Atoi`: optional sign, decimal digits, 64-bit range check. -/
def goAtoi (s : String) : Option Int :=
  match s.toList with
  | '-' :: rest =>
    (atoiCore rest).bind (fun n => if n ≤ 2 ^ 63 then some (-(n : Int)) else none)
  | '+' :: rest =>
    (atoiCore rest).bind (fun n => if n < 2 ^ 63 then some ((n : Int)) else none)
  | cs =>
    (atoiCore cs).bind (fun n => if n < 2 ^ 63 then some ((n : Int)) else none)

/-! ## URL resolution -/

/-- The two parse-error sites of the resolvers:
`fmt.Errorf("could not determine PR from URL: %v", rawURL)` and
`fmt.Errorf("error parsing PR number: %s", pr)`. -/
inductive ParseErr where
  | badShape (rawURL : String)
  | badNumber (segment : String)
deriving DecidableEq, Repr

/-- The URL-acceptance check performed inline by `NewGitHubHandler`: split
the URL path on `/`, insist on exactly five segments, read owner, repo and
PR number from segments 1, 2 and 4 (segment 3 is not inspected). -/
def newGitHubHandlerResolve (rawURL : String) : Except ParseErr (String × String × Int) :=
  let split := goSplitSlash (goURLPath rawURL)
  if split.length ≠ 5 then .error (.badShape rawURL)
  else
    let owner := split.getD 1 ""
    let repo := split.getD 2 ""
    let prStr := split.getD 4 ""
    match goAtoi prStr with
    | none => .error (.badNumber prStr)
    | some n => .ok (owner, repo, n)

/-- Modelled from the spec: the lenient standalone URL resolver
`parseGitHubURL`, which the repository's tests exercise but whose
definition is not among the provided source files.  Per the spec (§4.1) it
splits the path on `/`, fails when fewer than the minimum five segments are
present, reads the owner from the first non-empty segment, the repository
from the second, consumes the fourth segment without checking its literal
value, parses the PR number from the fifth, and ignores any further path
suffix; failure sites are the same two parse errors as the strict check. -/
def parseGitHubURL (rawURL : String) : Except ParseErr (String × String × Int) :=
  let split := goSplitSlash (goURLPath rawURL)
  if split.length < 5 then .error (.badShape rawURL)
  else
    let owner := split.getD 1 ""
    let repo := split.getD 2 ""
    let prStr := split.getD 4 ""
    match goAtoi prStr with
    | none => .error (.badNumber prStr)
    | some n => .ok (owner, repo, n)

/-! ## Generic on-disk data model (`main.go`) -/

/-- `GitReference` — immutable snapshot of a branch position. -/
structure GitReference where
  Repo : String
  Branch : String
  SHA : String
deriving DecidableEq, Repr

/-- `Comment` — `Text` is the desired body; `Author`, `ID`, `Raw` are
output-only (`ID = 0` means "not yet created on the provider"). -/
structure Comment where
  Text : String
  Author : String
  ID : Int
  Raw : String
deriving DecidableEq, Repr

/-- `Label` — labels carry no identity beyond their text. -/
structure Label where
  Text : String
deriving DecidableEq, Repr

/-- A Go slice: `none` is the nil slice (JSON `null`), `some l` a non-nil
slice (JSON array, `some []` being the empty array `[]`). -/
abbrev GoSlice (α : Type) := Option (List α)

/-- `PullRequest` — the root generic record (field `Type` of the Go struct
is spelled `type'` here since `Type` is reserved in Lean). -/
structure PullRequest where
  type' : String
  ID : Int
  Head : Option GitReference
  Base : Option GitReference
  Comments : GoSlice Comment
  Labels : GoSlice Label
  Raw : String
deriving DecidableEq, Repr

/-! ## Provider model (GitHub pull request, comments, labels) -/

/-- A provider-side issue comment (`github.IssueComment`): identity, author
login (`User.Login`) and body. -/
structure GitHubComment where
  id : Int
  author : String
  body : String
deriving DecidableEq, Repr

/-- The provider's pull-request payload (`github.PullRequest`), restricted
to the fields the subsystem reads: identity, head/base branch data, and the
label list (label names, order preserved). -/
structure GitHubPullRequest where
  id : Int
  headRepo : String
  headBranch : String
  headSHA : String
  baseRepo : String
  baseBranch : String
  baseSHA : String
  labels : List String
deriving DecidableEq, Repr

/-- Provider state for the one pull request the handler addresses:
the PR payload (carrying the labels), the comment list, the next fresh
comment identity the provider will assign, and the login that the provider
records as author of comments created through the API. -/
structure GitHubState where
  pr : GitHubPullRequest
  comments : List GitHubComment
  nextID : Int
  createLogin : String
deriving DecidableEq, Repr

/-! ## Filesystem model -/

/-- Contents of a written JSON file: decoding gives back the written
payload. -/
inductive FileContent where
  | rawPR (payload : GitHubPullRequest)
  | rawComment (payload : GitHubComment)
  | genericPR (record : PullRequest)
deriving DecidableEq, Repr

/-- A filesystem: path → file contents. -/
def FS := String → Option FileContent

/-- `writeJSON`: (over)write the file at `p`. -/
def FS.write (fs : FS) (p : String) (c : FileContent) : FS :=
  fun q => if q = p then some c else fs q

/-- `filepath.Join` for a clean directory and a relative component. -/
def goJoin (a b : String) : String := a ++ "/" ++ b

/-! ## Download (`GitHubHandler.Download`) -/

/-- One iteration of `Download`'s comment loop: write the comment's
verbatim payload to `<commentsDir>/<id>.json` and append the generic
`Comment` referencing that file. -/
def downloadCommentStep (commentsDir : String) (acc : FS × List Comment)
    (c : GitHubComment) : FS × List Comment :=
  let rawComment := goJoin commentsDir (toString c.id ++ ".json")
  (acc.1.write rawComment (.rawComment c),
   acc.2 ++ [{ Text := c.body, Author := c.author, ID := c.id, Raw := rawComment }])

/-- `Download`: fetch the PR, write its raw payload to
`<dir>/github/pr.json`, build the generic record (labels mapped in order,
comments with per-comment raw files under `<dir>/github/comments/`), and
write the record to `<dir>/pr.json`.  Returns the filesystem after the
writes and the assembled record. -/
def download (st : GitHubState) (dir : String) (fs0 : FS) : FS × PullRequest :=
  let rawDir := goJoin dir "github"
  let gpr := st.pr
  let rawPRPath := goJoin rawDir "pr.json"
  let fs1 := fs0.write rawPRPath (.rawPR gpr)
  let labels : List Label := gpr.labels.map (fun l => { Text := l })
  let commentsDir := goJoin rawDir "comments"
  let res := st.comments.foldl (downloadCommentStep commentsDir) (fs1, [])
  let record : PullRequest :=
    { type' := "github"
      ID := gpr.id
      Head := some { Repo := gpr.headRepo, Branch := gpr.headBranch, SHA := gpr.headSHA }
      Base := some { Repo := gpr.baseRepo, Branch := gpr.baseBranch, SHA := gpr.baseSHA }
      Comments := some res.2
      Labels := some labels
      Raw := rawPRPath }
  (res.1.write (goJoin dir "pr.json") (.genericPR record), record)

/-! ## Upload (`GitHubHandler.Upload`) -/

/-- A provider API mutation issued by `Upload`. -/
inductive Call where
  | replaceLabels (labels : List String)
  | deleteComment (id : Int)
  | editComment (id : Int) (body : String) (user : String)
  | createComment (body : String)
deriving DecidableEq, Repr

/-- `true` exactly on `replaceLabels` calls. -/
def Call.isReplaceLabels : Call → Bool
  | .replaceLabels _ => true
  | _ => false

/-- `true` exactly on `createComment` calls. -/
def Call.isCreate : Call → Bool
  | .createComment _ => true
  | _ => false

/-- Provider-side effect of a successful call: label replace overwrites
the PR's label list; delete removes the comment with the given identity;
edit rewrites only the body of the comment with the given identity (the
author is provider-managed and untouched); create appends a fresh comment
whose identity the provider assigns. -/
def applyCall (st : GitHubState) : Call → GitHubState
  | .replaceLabels L => { st with pr := { st.pr with labels := L } }
  | .deleteComment i => { st with comments := st.comments.filter (fun c => c.id ≠ i) }
  | .editComment i b _ =>
    { st with comments := st.comments.map (fun c => if c.id = i then { c with body := b } else c) }
  | .createComment b =>
    { st with
      comments := st.comments ++ [{ id := st.nextID, author := st.createLogin, body := b }]
      nextID := st.nextID + 1 }

/-- Go map assignment `m[k] = v`: overwrite in place if the key is present,
otherwise add the binding. -/
def insertOverwrite (m : List (Int × Comment)) (k : Int) (v : Comment) :
    List (Int × Comment) :=
  if m.any (fun p => p.1 = k) then m.map (fun p => if p.1 = k then (k, v) else p)
  else m ++ [(k, v)]

/-- `desiredComments`: the on-disk comments keyed by `ID`
(`desiredComments[c.ID] = c` over `pr.Comments`). -/
def buildDesired (cs : List Comment) : List (Int × Comment) :=
  cs.foldl (fun m c => insertOverwrite m c.ID c) []

/-- Go map lookup `m[k]`. -/
def lookupDesired (m : List (Int × Comment)) (k : Int) : Option Comment :=
  (m.find? (fun p => p.1 = k)).map (fun p => p.2)

/-- Go map `delete(m, k)`. -/
def eraseDesired (m : List (Int × Comment)) (k : Int) : List (Int × Comment) :=
  m.filter (fun p => p.1 ≠ k)

/-- `Upload`'s loop over the provider's existing comments: absent from the
desired mapping → delete; present with differing text → edit carrying the
new body and the existing comment's user; present and unchanged → no call;
in each case the processed identity is removed from the desired mapping.
Returns (trace, state, leftover desired mapping, failing call if any). -/
def syncComments (fails : Call → Bool) :
    List GitHubComment → List (Int × Comment) → GitHubState →
    List Call × GitHubState × List (Int × Comment) × Option Call
  | [], d, st => ([], st, d, none)
  | ec :: rest, d, st =>
    match lookupDesired d ec.id with
    | none =>
      let c := Call.deleteComment ec.id
      if fails c then ([c], st, d, some c)
      else
        let r := syncComments fails rest (eraseDesired d ec.id) (applyCall st c)
        (c :: r.1, r.2)
    | some dc =>
      if dc.Text ≠ ec.body then
        let c := Call.editComment ec.id dc.Text ec.author
        if fails c then ([c], st, d, some c)
        else
          let r := syncComments fails rest (eraseDesired d ec.id) (applyCall st c)
          (c :: r.1, r.2)
      else
        syncComments fails rest (eraseDesired d ec.id) st

/-- `Upload`'s final loop: create every comment left in the desired
mapping, with its `Text` as body. -/
def createComments (fails : Call → Bool) :
    List (Int × Comment) → GitHubState → List Call × GitHubState × Option Call
  | [], st => ([], st, none)
  | p :: rest, st =>
    let c := Call.createComment p.2.Text
    if fails c then ([c], st, some c)
    else
      let r := createComments fails rest (applyCall st c)
      (c :: r.1, r.2)

/-- `labelNames`: the literal `Text` list of the record's labels, in
order. -/
def desiredLabelNames (pr : PullRequest) : List String :=
  (pr.Labels.getD []).map (fun l => l.Text)

/-- `Upload` on an already-decoded record, against provider state `st`,
with `fails` deciding which API calls fail: replace the labels wholesale,
then reconcile comments (deletes/edits over the existing list, then
creates for the leftover desired mapping).  Any failing call aborts the
run at once.  Returns (trace of issued calls, provider state after the
successful calls, failing call if any). -/
def uploadWith (fails : Call → Bool) (pr : PullRequest) (st : GitHubState) :
    List Call × GitHubState × Option Call :=
  let c0 := Call.replaceLabels (desiredLabelNames pr)
  if fails c0 then ([c0], st, some c0)
  else
    let st1 := applyCall st c0
    let desired := buildDesired (pr.Comments.getD [])
    let s := syncComments fails st1.comments desired st1
    match s.2.2.2 with
    | some e => (c0 :: s.1, s.2.1, some e)
    | none =>
      let cr := createComments fails s.2.2.1 s.2.1
      (c0 :: s.1 ++ cr.1, cr.2.1, cr.2.2)

/-- The failure oracle of a run in which every provider call succeeds. -/
def noFail : Call → Bool := fun _ => false

/-- `Upload` in a run where every provider call succeeds. -/
def upload (pr : PullRequest) (st : GitHubState) :
    List Call × GitHubState × Option Call :=
  uploadWith noFail pr st

/-- Trace of calls issued by a fully successful `Upload`. -/
def uploadCalls (pr : PullRequest) (st : GitHubState) : List Call :=
  (upload pr st).1

/-- Provider state after a fully successful `Upload`. -/
def uploadState (pr : PullRequest) (st : GitHubState) : GitHubState :=
  (upload pr st).2.1

/-- `Upload` as invoked on a directory: read and decode `<dir>/pr.json`
(`none` models a read/decode failure), then reconcile. -/
def uploadFromDir (fs : FS) (dir : String) (st : GitHubState) :
    Option (List Call × GitHubState × Option Call) :=
  match fs (goJoin dir "pr.json") with
  | some (.genericPR pr) => some (upload pr st)
  | _ => none

/-! ## Helper lemmas: the desired-comment mapping -/

theorem mem_insertOverwrite {m : List (Int × Comment)} {k : Int} {v : Comment}
    {p : Int × Comment} (h : p ∈ insertOverwrite m k v) : p = (k, v) ∨ p ∈ m := by
  unfold insertOverwrite at h
  split at h
  · rcases List.mem_map.mp h with ⟨q, hq, hqe⟩
    by_cases hk : q.1 = k
    · left; rw [if_pos hk] at hqe; exact hqe.symm
    · right; rw [if_neg hk] at hqe; exact hqe ▸ hq
  · rcases List.mem_append.mp h with h' | h'
    · right; exact h'
    · left; simpa using h'

theorem mem_foldl_insertOverwrite :
    ∀ (cs : List Comment) (m : List (Int × Comment)) (p : Int × Comment),
      p ∈ cs.foldl (fun m c => insertOverwrite m c.ID c) m →
      p ∈ m ∨ (p.1 = p.2.ID ∧ p.2 ∈ cs)
  | [], _, _, h => Or.inl h
  | c :: rest, m, p, h => by
    rcases mem_foldl_insertOverwrite rest _ p h with h' | ⟨h1, h2⟩
    · rcases mem_insertOverwrite h' with he | hm
      · right; subst he; exact ⟨rfl, List.mem_cons_self _ _⟩
      · left; exact hm
    · right; exact ⟨h1, List.mem_cons_of_mem _ h2⟩

theorem mem_buildDesired {cs : List Comment} {p : Int × Comment}
    (h : p ∈ buildDesired cs) : p.1 = p.2.ID ∧ p.2 ∈ cs := by
  rcases mem_foldl_insertOverwrite cs [] p h with h' | h'
  · exact absurd h' (List.not_mem_nil p)
  · exact h'

theorem exists_key_insertOverwrite_self (m : List (Int × Comment)) (k : Int) (v : Comment) :
    ∃ p ∈ insertOverwrite m k v, p.1 = k := by
  unfold insertOverwrite
  split
  case isTrue h =>
    rcases List.any_eq_true.mp h with ⟨q, hq, hqk⟩
    exact ⟨(k, v), List.mem_map.mpr ⟨q, hq, by rw [if_pos (of_decide_eq_true hqk)]⟩, rfl⟩
  case isFalse _ =>
    exact ⟨(k, v), List.mem_append.mpr (Or.inr (List.mem_singleton.mpr rfl)), rfl⟩

theorem exists_key_insertOverwrite_mono (m : List (Int × Comment)) (k : Int) (v : Comment)
    {i : Int} (h : ∃ p ∈ m, p.1 = i) : ∃ p ∈ insertOverwrite m k v, p.1 = i := by
  rcases h with ⟨q, hq, hqi⟩
  unfold insertOverwrite
  split
  · by_cases hk : q.1 = k
    · exact ⟨(k, v), List.mem_map.mpr ⟨q, hq, by rw [if_pos hk]⟩, by rw [← hqi, ← hk]⟩
    · exact ⟨q, List.mem_map.mpr ⟨q, hq, by rw [if_neg hk]⟩, hqi⟩
  · exact ⟨q, List.mem_append.mpr (Or.inl hq), hqi⟩

theorem exists_key_foldl_insertOverwrite :
    ∀ (cs : List Comment) (m : List (Int × Comment)) {i : Int},
      ((∃ c ∈ cs, c.ID = i) ∨ (∃ p ∈ m, p.1 = i)) →
      ∃ p ∈ cs.foldl (fun m c => insertOverwrite m c.ID c) m, p.1 = i
  | [], _, _, h => by
    rcases h with ⟨c, hc, _⟩ | h
    · exact absurd hc (List.not_mem_nil c)
    · exact h
  | c :: rest, m, i, h => by
    apply exists_key_foldl_insertOverwrite rest (insertOverwrite m c.ID c)
    rcases h with ⟨c', hc', hci⟩ | hm
    · rcases List.mem_cons.mp hc' with rfl | hrest
      · right
        rcases exists_key_insertOverwrite_self m c'.ID c' with ⟨p, hp, hpk⟩
        exact ⟨p, hp, by rw [hpk, hci]⟩
      · left; exact ⟨c', hrest, hci⟩
    · right; exact exists_key_insertOverwrite_mono m c.ID c hm

theorem exists_key_buildDesired {cs : List Comment} {i : Int}
    (h : ∃ c ∈ cs, c.ID = i) : ∃ p ∈ buildDesired cs, p.1 = i :=
  exists_key_foldl_insertOverwrite cs [] (Or.inl h)

theorem lookupDesired_eq_none {m : List (Int × Comment)} {k : Int} :
    lookupDesired m k = none ↔ ∀ p ∈ m, p.1 ≠ k := by
  unfold lookupDesired
  rw [Option.map_eq_none', List.find?_eq_none]
  constructor
  · intro h p hp; simpa using h p hp
  · intro h p hp; simpa using h p hp

theorem lookupDesired_buildDesired_eq_none {cs : List Comment} {k : Int} :
    lookupDesired (buildDesired cs) k = none ↔ ∀ c ∈ cs, c.ID ≠ k := by
  rw [lookupDesired_eq_none]
  constructor
  · intro h c hc hk
    rcases exists_key_buildDesired ⟨c, hc, hk⟩ with ⟨p, hp, hpk⟩
    exact h p hp hpk
  · intro h p hp hk
    rcases mem_buildDesired hp with ⟨h1, h2⟩
    exact h p.2 h2 (h1 ▸ hk)

theorem find?_eraseDesired_ne {k i : Int} (h : i ≠ k) :
    ∀ d : List (Int × Comment),
      (eraseDesired d k).find? (fun p => p.1 = i) = d.find? (fun p => p.1 = i)
  | [] => rfl
  | p :: rest => by
    by_cases hk : p.1 = k
    · have hpi : ¬(p.1 = i) := fun hpi => h (by rw [← hpi, hk])
      have he : eraseDesired (p :: rest) k = eraseDesired rest k := by
        simp [eraseDesired, List.filter_cons, hk]
      rw [he, List.find?_cons_of_neg _ (by simpa using hpi)]
      exact find?_eraseDesired_ne h rest
    · have he : eraseDesired (p :: rest) k = p :: eraseDesired rest k := by
        simp [eraseDesired, List.filter_cons, hk]
      rw [he]
      by_cases hpi : p.1 = i
      · rw [List.find?_cons_of_pos _ (by simpa using hpi),
          List.find?_cons_of_pos _ (by simpa using hpi)]
      · rw [List.find?_cons_of_neg _ (by simpa using hpi),
          List.find?_cons_of_neg _ (by simpa using hpi)]
        exact find?_eraseDesired_ne h rest

theorem lookupDesired_eraseDesired_ne {d : List (Int × Comment)} {k i : Int} (h : i ≠ k) :
    lookupDesired (eraseDesired d k) i = lookupDesired d i := by
  unfold lookupDesired
  exact congrArg (Option.map fun p => p.2) (find?_eraseDesired_ne h d)

theorem foldl_insertOverwrite_of_disjoint :
    ∀ (cs : List Comment) (m : List (Int × Comment)),
      (∀ c ∈ cs, ∀ q ∈ m, q.1 ≠ c.ID) → ((cs.map (fun c => c.ID)).Nodup) →
      cs.foldl (fun m c => insertOverwrite m c.ID c) m = m ++ cs.map (fun c => (c.ID, c))
  | [], m, _, _ => by simp
  | c :: rest, m, hdisj, hnd => by
    have hins : insertOverwrite m c.ID c = m ++ [(c.ID, c)] := by
      unfold insertOverwrite
      rw [if_neg ?_]
      intro hany
      rcases List.any_eq_true.mp hany with ⟨q, hq, hqk⟩
      exact hdisj c (List.mem_cons_self _ _) q hq (of_decide_eq_true hqk)
    obtain ⟨hnotin, hndrest⟩ :
        (∀ x ∈ rest, ¬x.ID = c.ID) ∧ (List.map (fun c => c.ID) rest).Nodup := by
      simpa using hnd
    rw [List.foldl_cons, hins,
      foldl_insertOverwrite_of_disjoint rest (m ++ [(c.ID, c)]) ?_ hndrest]
    · simp
    · intro c' hc' q hq
      rcases List.mem_append.mp hq with hqm | hqs
      · exact hdisj c' (List.mem_cons_of_mem _ hc') q hqm
      · have hq1 : q.1 = c.ID := by
          have : q = (c.ID, c) := by simpa using hqs
          rw [this]
        rw [hq1]
        intro hcc
        exact hnotin c' hc' hcc.symm

theorem buildDesired_eq_of_nodup {cs : List Comment}
    (h : (cs.map (fun c => c.ID)).Nodup) :
    buildDesired cs = cs.map (fun c => (c.ID, c)) := by
  have := foldl_insertOverwrite_of_disjoint cs []
    (fun c _ q hq => absurd hq (List.not_mem_nil q)) h
  simpa [buildDesired] using this

theorem lookupDesired_pairs_self :
    ∀ {cs : List Comment}, ((cs.map (fun c => c.ID)).Nodup) → ∀ {c : Comment}, c ∈ cs →
      lookupDesired (cs.map (fun x => (x.ID, x))) c.ID = some c := by
  intro cs
  induction cs with
  | nil => intro _ c hc; exact absurd hc (List.not_mem_nil c)
  | cons c' rest ih =>
    intro hnd c hc
    obtain ⟨hnotin, hndrest⟩ :
        (∀ x ∈ rest, ¬x.ID = c'.ID) ∧ (List.map (fun c => c.ID) rest).Nodup := by
      simpa using hnd
    rcases List.mem_cons.mp hc with rfl | hrest
    · unfold lookupDesired
      rw [List.map_cons, List.find?_cons_of_pos _ (by simp)]
      rfl
    · have hne : c'.ID ≠ c.ID := fun hcc => hnotin c hrest hcc.symm
      unfold lookupDesired
      rw [List.map_cons, List.find?_cons_of_neg _ (by simpa using hne)]
      exact ih hndrest hrest

theorem lookupDesired_buildDesired_self {cs : List Comment}
    (h : (cs.map (fun c => c.ID)).Nodup) {c : Comment} (hc : c ∈ cs) :
    lookupDesired (buildDesired cs) c.ID = some c := by
  rw [buildDesired_eq_of_nodup h]
  exact lookupDesired_pairs_self h hc

/-! ## Helper lemmas: the reconciliation loops -/

theorem syncComments_noFail_ok :
    ∀ (ex : List GitHubComment) (d : List (Int × Comment)) (st : GitHubState),
      (syncComments noFail ex d st).2.2.2 = none
  | [], _, _ => rfl
  | ec :: rest, d, st => by
    simp only [syncComments, noFail]
    cases h : lookupDesired d ec.id with
    | none => simp [syncComments_noFail_ok rest]
    | some dc =>
      by_cases ht : dc.Text ≠ ec.body
      · simp [ht, syncComments_noFail_ok rest]
      · simp [ht, syncComments_noFail_ok rest]

theorem syncComments_remaining :
    ∀ (ex : List GitHubComment) (d : List (Int × Comment)) (st : GitHubState),
      (syncComments noFail ex d st).2.2.1 =
        ex.foldl (fun m ec => eraseDesired m ec.id) d
  | [], _, _ => rfl
  | ec :: rest, d, st => by
    simp only [syncComments, noFail]
    cases h : lookupDesired d ec.id with
    | none => simp [syncComments_remaining rest]
    | some dc =>
      by_cases ht : dc.Text ≠ ec.body
      · simp [ht, syncComments_remaining rest]
      · simp [ht, syncComments_remaining rest]

theorem mem_foldl_eraseDesired :
    ∀ (ex : List GitHubComment) (d : List (Int × Comment)) (p : Int × Comment),
      p ∈ ex.foldl (fun m ec => eraseDesired m ec.id) d →
      p ∈ d ∧ ∀ ec ∈ ex, p.1 ≠ ec.id
  | [], _, _, h => ⟨h, fun _ h' => absurd h' (List.not_mem_nil _)⟩
  | ec :: rest, d, p, h => by
    rcases mem_foldl_eraseDesired rest _ p h with ⟨h1, h2⟩
    have h1' : p ∈ d.filter (fun q => q.1 ≠ ec.id) := h1
    have h3 := List.mem_filter.mp h1'
    refine ⟨h3.1, ?_⟩
    intro ec' hec'
    rcases List.mem_cons.mp hec' with rfl | hr
    · simpa using h3.2
    · exact h2 ec' hr

theorem syncComments_trace_forms (fails : Call → Bool) :
    ∀ (ex : List GitHubComment) (d : List (Int × Comment)) (st : GitHubState)
      (c : Call), c ∈ (syncComments fails ex d st).1 →
      ∃ ec ∈ ex, c = .deleteComment ec.id ∨ ∃ b u, c = .editComment ec.id b u
  | [], _, _, _, h => absurd h (List.not_mem_nil _)
  | ec :: rest, d, st, c, h => by
    cases hl : lookupDesired d ec.id with
    | none =>
      simp only [syncComments, hl] at h
      by_cases hf : fails (Call.deleteComment ec.id) = true
      · rw [if_pos hf] at h
        refine ⟨ec, List.mem_cons_self _ _, Or.inl ?_⟩
        simpa using h
      · rw [if_neg hf] at h
        simp only [List.mem_cons] at h
        rcases h with rfl | h
        · exact ⟨ec, List.mem_cons_self _ _, Or.inl rfl⟩
        · rcases syncComments_trace_forms fails rest _ _ c h with ⟨ec', hec', hc⟩
          exact ⟨ec', List.mem_cons_of_mem _ hec', hc⟩
    | some dc =>
      simp only [syncComments, hl] at h
      by_cases ht : dc.Text ≠ ec.body
      · rw [if_pos ht] at h
        by_cases hf : fails (Call.editComment ec.id dc.Text ec.author) = true
        · rw [if_pos hf] at h
          refine ⟨ec, List.mem_cons_self _ _, Or.inr ⟨dc.Text, ec.author, ?_⟩⟩
          simpa using h
        · rw [if_neg hf] at h
          simp only [List.mem_cons] at h
          rcases h with rfl | h
          · exact ⟨ec, List.mem_cons_self _ _, Or.inr ⟨dc.Text, ec.author, rfl⟩⟩
          · rcases syncComments_trace_forms fails rest _ _ c h with ⟨ec', hec', hc⟩
            exact ⟨ec', List.mem_cons_of_mem _ hec', hc⟩
      · rw [if_neg ht] at h
        rcases syncComments_trace_forms fails rest _ _ c h with ⟨ec', hec', hc⟩
        exact ⟨ec', List.mem_cons_of_mem _ hec', hc⟩

theorem createComments_noFail :
    ∀ (rem : List (Int × Comment)) (st : GitHubState),
      createComments noFail rem st =
        (rem.map (fun p => Call.createComment p.2.Text),
         rem.foldl (fun s p => applyCall s (Call.createComment p.2.Text)) st, none)
  | [], _ => rfl
  | p :: rest, st => by
    simp only [createComments, noFail]
    simp [createComments_noFail rest]

theorem syncComments_pr (fails : Call → Bool) :
    ∀ (ex : List GitHubComment) (d : List (Int × Comment)) (st : GitHubState),
      (syncComments fails ex d st).2.1.pr = st.pr
  | [], _, _ => rfl
  | ec :: rest, d, st => by
    simp only [syncComments]
    cases hl : lookupDesired d ec.id with
    | none =>
      by_cases hf : fails (Call.deleteComment ec.id)
      · simp [hf]
      · simp [hf, syncComments_pr fails rest, applyCall]
    | some dc =>
      by_cases ht : dc.Text ≠ ec.body
      · by_cases hf : fails (Call.editComment ec.id dc.Text ec.author)
        · simp [ht, hf]
        · simp [ht, hf, syncComments_pr fails rest, applyCall]
      · simp [ht, syncComments_pr fails rest]

theorem createComments_pr (fails : Call → Bool) :
    ∀ (rem : List (Int × Comment)) (st : GitHubState),
      (createComments fails rem st).2.1.pr = st.pr
  | [], _ => rfl
  | p :: rest, st => by
    simp only [createComments]
    by_cases hf : fails (Call.createComment p.2.Text)
    · simp [hf]
    · simp [hf, createComments_pr fails rest, applyCall]

/-- The first pipeline stage of a fully successful `Upload`: label replace
applied, then the delete/edit loop. -/
def uploadSync (pr : PullRequest) (st : GitHubState) :
    List Call × GitHubState × List (Int × Comment) × Option Call :=
  let st1 := applyCall st (Call.replaceLabels (desiredLabelNames pr))
  syncComments noFail st1.comments (buildDesired (pr.Comments.getD [])) st1

/-- The second pipeline stage of a fully successful `Upload`: the create
loop over the leftover desired mapping. -/
def uploadCreate (pr : PullRequest) (st : GitHubState) :
    List Call × GitHubState × Option Call :=
  createComments noFail (uploadSync pr st).2.2.1 (uploadSync pr st).2.1

theorem upload_eq (pr : PullRequest) (st : GitHubState) :
    upload pr st =
      (Call.replaceLabels (desiredLabelNames pr) ::
        ((uploadSync pr st).1 ++ (uploadCreate pr st).1),
       (uploadCreate pr st).2.1, (uploadCreate pr st).2.2) := by
  unfold upload uploadWith uploadCreate uploadSync
  simp only [noFail, Bool.false_eq_true, if_false, syncComments_noFail_ok]
  rfl

/-- `true` exactly on delete/edit calls that address comment `i`. -/
def Call.touches (i : Int) : Call → Bool
  | .deleteComment j => j == i
  | .editComment j _ _ => j == i
  | _ => false

theorem find?_id_self :
    ∀ {ex : List GitHubComment}, ((ex.map (fun x => x.id)).Nodup) →
      ∀ {ec : GitHubComment}, ec ∈ ex → ex.find? (fun x => x.id = ec.id) = some ec := by
  intro ex
  induction ex with
  | nil => intro _ ec hec; exact absurd hec (List.not_mem_nil ec)
  | cons e rest ih =>
    intro hnd ec hec
    obtain ⟨hnotin, hndrest⟩ :
        (∀ x ∈ rest, ¬x.id = e.id) ∧ (List.map (fun x => x.id) rest).Nodup := by
      simpa using hnd
    rcases List.mem_cons.mp hec with rfl | hrest
    · rw [List.find?_cons_of_pos _ (by simp)]
    · have hne : e.id ≠ ec.id := fun hcc => hnotin ec hrest hcc.symm
      rw [List.find?_cons_of_neg _ (by simpa using hne)]
      exact ih hndrest hrest

theorem syncComments_touching (i : Int) :
    ∀ (ex : List GitHubComment) (d : List (Int × Comment)) (st : GitHubState),
      ((ex.map (fun ec => ec.id)).Nodup) →
      (syncComments noFail ex d st).1.filter (Call.touches i) =
        match ex.find? (fun ec => ec.id = i), lookupDesired d i with
        | some _, none => [Call.deleteComment i]
        | some ec, some dc =>
          if dc.Text ≠ ec.body then [Call.editComment i dc.Text ec.author] else []
        | none, _ => []
  | [], d, st, _ => by
    cases h : lookupDesired d i <;> rfl
  | ec' :: rest, d, st, hnd => by
    obtain ⟨hnotin, hndrest⟩ :
        (∀ x ∈ rest, ¬x.id = ec'.id) ∧ (List.map (fun ec => ec.id) rest).Nodup := by
      simpa using hnd
    cases hl : lookupDesired d ec'.id with
    | none =>
      simp only [syncComments, hl, noFail, Bool.false_eq_true, if_false]
      by_cases hi : ec'.id = i
      · subst hi
        rw [List.find?_cons_of_pos _ (by simp), hl]
        rw [List.filter_cons, if_pos (by simp [Call.touches])]
        rw [syncComments_touching ec'.id rest _ _ hndrest]
        rw [List.find?_eq_none.mpr (fun x hx => by simpa using hnotin x hx)]
      · rw [List.find?_cons_of_neg _ (by simpa using hi)]
        rw [List.filter_cons, if_neg (by simp [Call.touches, hi])]
        rw [syncComments_touching i rest _ _ hndrest]
        rw [lookupDesired_eraseDesired_ne (fun h => hi h.symm)]
    | some dc =>
      simp only [syncComments, hl, noFail, Bool.false_eq_true, if_false]
      by_cases ht : dc.Text ≠ ec'.body
      · rw [if_pos ht]
        by_cases hi : ec'.id = i
        · subst hi
          rw [List.find?_cons_of_pos _ (by simp), hl]
          dsimp only
          rw [if_pos ht]
          rw [List.filter_cons, if_pos (by simp [Call.touches])]
          rw [syncComments_touching ec'.id rest _ _ hndrest]
          rw [List.find?_eq_none.mpr (fun x hx => by simpa using hnotin x hx)]
        · rw [List.find?_cons_of_neg _ (by simpa using hi)]
          rw [List.filter_cons, if_neg (by simp [Call.touches, hi])]
          rw [syncComments_touching i rest _ _ hndrest]
          rw [lookupDesired_eraseDesired_ne (fun h => hi h.symm)]
      · rw [if_neg ht]
        by_cases hi : ec'.id = i
        · subst hi
          rw [List.find?_cons_of_pos _ (by simp), hl]
          dsimp only
          rw [if_neg ht]
          rw [syncComments_touching ec'.id rest _ _ hndrest]
          rw [List.find?_eq_none.mpr (fun x hx => by simpa using hnotin x hx)]
        · rw [List.find?_cons_of_neg _ (by simpa using hi)]
          rw [syncComments_touching i rest _ _ hndrest]
          rw [lookupDesired_eraseDesired_ne (fun h => hi h.symm)]

theorem createComments_filter_touching (i : Int) (rem : List (Int × Comment))
    (st : GitHubState) :
    (createComments noFail rem st).1.filter (Call.touches i) = [] := by
  rw [createComments_noFail]
  apply List.filter_eq_nil.mpr
  intro c hc
  rcases List.mem_map.mp hc with ⟨p, _, rfl⟩
  simp [Call.touches]

theorem uploadCalls_touching (i : Int) (pr : PullRequest) (st : GitHubState)
    (hnd : (st.comments.map (fun ec => ec.id)).Nodup) :
    (uploadCalls pr st).filter (Call.touches i) =
      match st.comments.find? (fun ec => ec.id = i),
          lookupDesired (buildDesired (pr.Comments.getD [])) i with
      | some _, none => [Call.deleteComment i]
      | some ec, some dc =>
        if dc.Text ≠ ec.body then [Call.editComment i dc.Text ec.author] else []
      | none, _ => []
  := by
  rw [uploadCalls, upload_eq, List.filter_cons, if_neg (by simp [Call.touches]),
    List.filter_append]
  unfold uploadCreate uploadSync
  dsimp only [applyCall]
  rw [createComments_filter_touching, List.append_nil]
  rw [syncComments_touching i _ _ _ hnd]

/-! ## Helper lemmas: the download path -/

/-- The raw-storage path for the comment with identity `i`:
`<dir>/github/comments/<i>.json`. -/
def commentPath (dir : String) (i : Int) : String :=
  goJoin (goJoin (goJoin dir "github") "comments") (toString i ++ ".json")

/-- The generic `Comment` that `Download` derives from a provider comment,
with `raw` giving the per-comment raw-storage path. -/
def downloadedComment (raw : GitHubComment → String) (e : GitHubComment) : Comment :=
  { Text := e.body, Author := e.author, ID := e.id, Raw := raw e }

theorem foldl_downloadCommentStep_snd (p : String) :
    ∀ (l : List GitHubComment) (b : FS × List Comment),
      (l.foldl (downloadCommentStep p) b).2 =
        b.2 ++ l.map (downloadedComment (fun c => goJoin p (toString c.id ++ ".json")))
  | [], _ => by simp
  | c :: l, b => by
    rw [List.foldl_cons, foldl_downloadCommentStep_snd p l]
    simp [downloadCommentStep, downloadedComment]

theorem foldl_downloadCommentStep_fst (p : String) :
    ∀ (l : List GitHubComment) (b : FS × List Comment),
      (l.foldl (downloadCommentStep p) b).1 =
        l.foldl (fun fs c =>
          FS.write fs (goJoin p (toString c.id ++ ".json")) (FileContent.rawComment c)) b.1
  | [], _ => rfl
  | c :: l, b => by
    rw [List.foldl_cons, List.foldl_cons, foldl_downloadCommentStep_fst p l]
    rfl

theorem download_record (st : GitHubState) (dir : String) (fs0 : FS) :
    (download st dir fs0).2 =
      { type' := "github"
        ID := st.pr.id
        Head := some { Repo := st.pr.headRepo, Branch := st.pr.headBranch, SHA := st.pr.headSHA }
        Base := some { Repo := st.pr.baseRepo, Branch := st.pr.baseBranch, SHA := st.pr.baseSHA }
        Comments := some (st.comments.map (downloadedComment (fun c => commentPath dir c.id)))
        Labels := some (st.pr.labels.map (fun l => { Text := l }))
        Raw := goJoin (goJoin dir "github") "pr.json" } := by
  unfold download
  dsimp only
  rw [foldl_downloadCommentStep_snd]
  simp [downloadedComment, commentPath]

theorem download_fs (st : GitHubState) (dir : String) (fs0 : FS) :
    (download st dir fs0).1 = FS.write
      (st.comments.foldl
        (fun fs c => FS.write fs (commentPath dir c.id) (FileContent.rawComment c))
        (FS.write fs0 (goJoin (goJoin dir "github") "pr.json") (FileContent.rawPR st.pr)))
      (goJoin dir "pr.json") (FileContent.genericPR (download st dir fs0).2) := by
  rw [download_record]
  conv_lhs => unfold download
  dsimp only
  rw [foldl_downloadCommentStep_fst, foldl_downloadCommentStep_snd]
  simp [commentPath, downloadedComment]

theorem syncComments_matchAll (raw : GitHubComment → String) :
    ∀ (ex : List GitHubComment) (st : GitHubState),
      ((ex.map (fun e => e.id)).Nodup) →
      syncComments noFail ex (ex.map (fun e => (e.id, downloadedComment raw e))) st =
        ([], st, [], none)
  | [], _, _ => rfl
  | e :: rest, st, hnd => by
    obtain ⟨hnotin, hndrest⟩ :
        (∀ x ∈ rest, ¬x.id = e.id) ∧ (List.map (fun e => e.id) rest).Nodup := by
      simpa using hnd
    have hl : lookupDesired ((e :: rest).map (fun e => (e.id, downloadedComment raw e))) e.id
        = some (downloadedComment raw e) := by
      unfold lookupDesired
      rw [List.map_cons, List.find?_cons_of_pos _ (by simp)]
      rfl
    have herase :
        eraseDesired ((e :: rest).map (fun e => (e.id, downloadedComment raw e))) e.id
          = rest.map (fun e => (e.id, downloadedComment raw e)) := by
      unfold eraseDesired
      rw [List.map_cons, List.filter_cons, if_neg (by simp)]
      apply List.filter_eq_self.mpr
      intro p hp
      rcases List.mem_map.mp hp with ⟨e', he', rfl⟩
      simpa using fun h => hnotin e' he' h
    simp only [syncComments, hl, noFail, Bool.false_eq_true, if_false]
    rw [if_neg (by simp [downloadedComment])]
    rw [herase]
    exact syncComments_matchAll raw rest st hndrest

/-! ## Helper lemmas: filesystem lookups and path distinctness -/

theorem ne_of_data_ne {a b : String} (h : a.data ≠ b.data) : a ≠ b :=
  fun he => h (congrArg String.data he)

theorem goJoin_data (a b : String) : (goJoin a b).data = a.data ++ '/' :: b.data := by
  simp [goJoin, String.data_append]

theorem prPath_ne_rawPRPath (dir : String) :
    goJoin dir "pr.json" ≠ goJoin (goJoin dir "github") "pr.json" := by
  apply ne_of_data_ne
  simp only [goJoin_data, List.append_assoc, List.cons_append]
  intro h
  have h' := List.append_cancel_left h
  simp at h'

theorem prPath_ne_commentPath (dir : String) (i : Int) :
    goJoin dir "pr.json" ≠ commentPath dir i := by
  apply ne_of_data_ne
  simp only [commentPath, goJoin_data, List.append_assoc, List.cons_append]
  intro h
  have h' := List.append_cancel_left h
  simp at h'

theorem rawPRPath_ne_commentPath (dir : String) (i : Int) :
    goJoin (goJoin dir "github") "pr.json" ≠ commentPath dir i := by
  apply ne_of_data_ne
  simp only [commentPath, goJoin_data, List.append_assoc, List.cons_append]
  intro h
  have h' := List.append_cancel_left h
  simp at h'

theorem commentPath_nodup (dir : String) {l : List GitHubComment}
    (h : (l.map (fun c => toString c.id)).Nodup) :
    (l.map (fun c => commentPath dir c.id)).Nodup := by
  have hm : l.map (fun c => commentPath dir c.id)
      = (l.map (fun c => toString c.id)).map
          (fun s => goJoin (goJoin (goJoin dir "github") "comments") (s ++ ".json")) := by
    rw [List.map_map]; rfl
  rw [hm]
  apply List.Nodup.map ?_ h
  intro x y hxy
  have hxy' : goJoin (goJoin (goJoin dir "github") "comments") (x ++ ".json")
      = goJoin (goJoin (goJoin dir "github") "comments") (y ++ ".json") := hxy
  have hd := congrArg String.data hxy'
  simp only [goJoin, String.data_append, List.append_assoc] at hd
  have h1 := List.append_cancel_left (List.append_cancel_left hd)
  have h2 := List.append_cancel_left (List.append_cancel_left
    (List.append_cancel_left (List.append_cancel_left h1)))
  exact String.ext (List.append_cancel_right h2)

theorem foldl_write_not_mem (path : GitHubComment → String)
    (content : GitHubComment → FileContent) :
    ∀ (l : List GitHubComment) (fs : FS) (q : String),
      (∀ c ∈ l, path c ≠ q) →
      (l.foldl (fun f c => FS.write f (path c) (content c)) fs) q = fs q
  | [], _, _, _ => rfl
  | c :: l, fs, q, h => by
    rw [List.foldl_cons,
      foldl_write_not_mem path content l _ q (fun c' hc' => h c' (List.mem_cons_of_mem _ hc'))]
    show (if q = path c then some (content c) else fs q) = fs q
    exact if_neg (fun hq => h c (List.mem_cons_self _ _) hq.symm)

theorem foldl_write_mem_nodup (path : GitHubComment → String)
    (content : GitHubComment → FileContent) :
    ∀ (l : List GitHubComment) (fs : FS) {c : GitHubComment},
      ((l.map path).Nodup) → c ∈ l →
      (l.foldl (fun f c => FS.write f (path c) (content c)) fs) (path c) = some (content c)
  | [], _, _, _, hc => absurd hc (List.not_mem_nil _)
  | c' :: l, fs, c, hnd, hc => by
    obtain ⟨hnotin, hndrest⟩ : (∀ x ∈ l, ¬path x = path c') ∧ (l.map path).Nodup := by
      simpa using hnd
    rcases List.mem_cons.mp hc with rfl | hrest
    · rw [List.foldl_cons,
        foldl_write_not_mem path content l _ (path c) (fun x hx => hnotin x hx)]
      show (if path c = path c then some (content c) else fs (path c)) = some (content c)
      exact if_pos rfl
    · rw [List.foldl_cons]
      exact foldl_write_mem_nodup path content l _ hndrest hrest

theorem download_fs_generic (st : GitHubState) (dir : String) (fs0 : FS) :
    (download st dir fs0).1 (goJoin dir "pr.json")
      = some (FileContent.genericPR (download st dir fs0).2) := by
  rw [download_fs]
  show (if goJoin dir "pr.json" = goJoin dir "pr.json" then _ else _) = _
  rw [if_pos rfl]

theorem download_fs_rawPR (st : GitHubState) (dir : String) (fs0 : FS) :
    (download st dir fs0).1 (goJoin (goJoin dir "github") "pr.json")
      = some (FileContent.rawPR st.pr) := by
  rw [download_fs]
  show (if goJoin (goJoin dir "github") "pr.json" = goJoin dir "pr.json" then _ else _) = _
  rw [if_neg (fun h => prPath_ne_rawPRPath dir h.symm)]
  rw [foldl_write_not_mem _ _ _ _ _ (fun c _ => (rawPRPath_ne_commentPath dir c.id).symm)]
  show (if goJoin (goJoin dir "github") "pr.json" = goJoin (goJoin dir "github") "pr.json"
      then _ else _) = _
  rw [if_pos rfl]

theorem download_fs_rawComment (st : GitHubState) (dir : String) (fs0 : FS)
    (hnd : (st.comments.map (fun c => toString c.id)).Nodup)
    {c : GitHubComment} (hc : c ∈ st.comments) :
    (download st dir fs0).1 (commentPath dir c.id) = some (FileContent.rawComment c) := by
  rw [download_fs]
  show (if commentPath dir c.id = goJoin dir "pr.json" then _ else _) = _
  rw [if_neg (fun h => prPath_ne_commentPath dir c.id h.symm)]
  exact foldl_write_mem_nodup _ _ _ _ (commentPath_nodup dir hnd) hc

/-! ## Helper lemmas: failure semantics -/

theorem syncComments_failure (fails : Call → Bool) :
    ∀ (ex : List GitHubComment) (d : List (Int × Comment)) (st : GitHubState),
      ((syncComments fails ex d st).2.2.2 = none →
        (∀ c ∈ (syncComments fails ex d st).1, fails c = false) ∧
        (syncComments fails ex d st).2.1 = (syncComments fails ex d st).1.foldl applyCall st) ∧
      (∀ e, (syncComments fails ex d st).2.2.2 = some e →
        fails e = true ∧ ∃ pre, (syncComments fails ex d st).1 = pre ++ [e] ∧
          (∀ c ∈ pre, fails c = false) ∧
          (syncComments fails ex d st).2.1 = pre.foldl applyCall st)
  | [], d, st => by
    constructor
    · intro _
      exact ⟨fun c hc => absurd hc (List.not_mem_nil c), rfl⟩
    · intro e he
      exact absurd he (by simp [syncComments])
  | ec :: rest, d, st => by
    cases hl : lookupDesired d ec.id with
    | none =>
      by_cases hf : fails (Call.deleteComment ec.id) = true
      · simp only [syncComments, hl, hf, if_true]
        constructor
        · intro h; exact absurd h (by simp)
        · intro e he
          have he' : Call.deleteComment ec.id = e := by simpa using he
          subst he'
          exact ⟨hf, [], rfl, fun c hc => absurd hc (List.not_mem_nil c), rfl⟩
      · simp only [syncComments, hl, hf, if_false]
        have ih := syncComments_failure fails rest (eraseDesired d ec.id)
          (applyCall st (Call.deleteComment ec.id))
        constructor
        · intro h
          rcases ih.1 (by simpa using h) with ⟨h1, h2⟩
          constructor
          · intro c hc
            rcases List.mem_cons.mp (by simpa using hc) with rfl | hc'
            · simpa using hf
            · exact h1 c hc'
          · simpa [List.foldl_cons] using h2
        · intro e he
          rcases ih.2 e (by simpa using he) with ⟨h1, pre, h2, h3, h4⟩
          refine ⟨h1, Call.deleteComment ec.id :: pre, by simpa using h2, ?_, ?_⟩
          · intro c hc
            rcases List.mem_cons.mp hc with rfl | hc'
            · simpa using hf
            · exact h3 c hc'
          · simpa [List.foldl_cons] using h4
    | some dc =>
      by_cases ht : dc.Text ≠ ec.body
      · by_cases hf : fails (Call.editComment ec.id dc.Text ec.author) = true
        · simp only [syncComments, hl]
          rw [if_pos ht]
          simp only [hf, if_true]
          constructor
          · intro h; exact absurd h (by simp)
          · intro e he
            have he' : Call.editComment ec.id dc.Text ec.author = e := by simpa using he
            subst he'
            exact ⟨hf, [], rfl, fun c hc => absurd hc (List.not_mem_nil c), rfl⟩
        · simp only [syncComments, hl]
          rw [if_pos ht]
          simp only [hf, if_false]
          have ih := syncComments_failure fails rest (eraseDesired d ec.id)
            (applyCall st (Call.editComment ec.id dc.Text ec.author))
          constructor
          · intro h
            rcases ih.1 (by simpa using h) with ⟨h1, h2⟩
            constructor
            · intro c hc
              rcases List.mem_cons.mp (by simpa using hc) with rfl | hc'
              · simpa using hf
              · exact h1 c hc'
            · simpa [List.foldl_cons] using h2
          · intro e he
            rcases ih.2 e (by simpa using he) with ⟨h1, pre, h2, h3, h4⟩
            refine ⟨h1, Call.editComment ec.id dc.Text ec.author :: pre,
              by simpa using h2, ?_, ?_⟩
            · intro c hc
              rcases List.mem_cons.mp hc with rfl | hc'
              · simpa using hf
              · exact h3 c hc'
            · simpa [List.foldl_cons] using h4
      · simp only [syncComments, hl]
        rw [if_neg ht]
        exact syncComments_failure fails rest (eraseDesired d ec.id) st

theorem createComments_failure (fails : Call → Bool) :
    ∀ (rem : List (Int × Comment)) (st : GitHubState),
      ((createComments fails rem st).2.2 = none →
        (∀ c ∈ (createComments fails rem st).1, fails c = false) ∧
        (createComments fails rem st).2.1 = (createComments fails rem st).1.foldl applyCall st) ∧
      (∀ e, (createComments fails rem st).2.2 = some e →
        fails e = true ∧ ∃ pre, (createComments fails rem st).1 = pre ++ [e] ∧
          (∀ c ∈ pre, fails c = false) ∧
          (createComments fails rem st).2.1 = pre.foldl applyCall st)
  | [], st => by
    constructor
    · intro _
      exact ⟨fun c hc => absurd hc (List.not_mem_nil c), rfl⟩
    · intro e he
      exact absurd he (by simp [createComments])
  | p :: rest, st => by
    by_cases hf : fails (Call.createComment p.2.Text) = true
    · simp only [createComments, hf, if_true]
      constructor
      · intro h; exact absurd h (by simp)
      · intro e he
        have he' : Call.createComment p.2.Text = e := by simpa using he
        subst he'
        exact ⟨hf, [], rfl, fun c hc => absurd hc (List.not_mem_nil c), rfl⟩
    · simp only [createComments, hf, if_false]
      have ih := createComments_failure fails rest (applyCall st (Call.createComment p.2.Text))
      constructor
      · intro h
        rcases ih.1 (by simpa using h) with ⟨h1, h2⟩
        constructor
        · intro c hc
          rcases List.mem_cons.mp (by simpa using hc) with rfl | hc'
          · simpa using hf
          · exact h1 c hc'
        · simpa [List.foldl_cons] using h2
      · intro e he
        rcases ih.2 e (by simpa using he) with ⟨h1, pre, h2, h3, h4⟩
        refine ⟨h1, Call.createComment p.2.Text :: pre, by simpa using h2, ?_, ?_⟩
        · intro c hc
          rcases List.mem_cons.mp hc with rfl | hc'
          · simpa using hf
          · exact h3 c hc'
        · simpa [List.foldl_cons] using h4

/-! ## Claim theorems -/

/-- C2 counterexample: the URL-acceptance check used at handler
construction (`NewGitHubHandler`) rejects a trailing slash and extra path
segments after the PR number, while the claim asserts they are tolerated
there; the exact five-segment form is accepted. -/
theorem handler_url_suffix_rejected_cex :
    newGitHubHandlerResolve "https://github.com/owner/repo/pulls/1/"
        = .error (.badShape "https://github.com/owner/repo/pulls/1/") ∧
    newGitHubHandlerResolve "https://github.com/owner/repo/pulls/1/files"
        = .error (.badShape "https://github.com/owner/repo/pulls/1/files") ∧
    newGitHubHandlerResolve "https://github.com/owner/repo/pulls/1"
        = .ok ("owner", "repo", 1) := by
  refine ⟨rfl, rfl, rfl⟩

/-- C2 (amended): for every URL whose path has exactly the shape
`/<owner>/<repo>/<token>/<number>` — five slash-separated segments, no
trailing slash and no extra segments — with any scheme and any host, the
resolver used at handler construction returns `(owner, repo, number)`; the
fourth path segment's literal value is not checked. -/
theorem handler_url_exact_shape_resolves
    (raw owner repo tok num : String) (n : Int)
    (hsplit : goSplitSlash (goURLPath raw) = ["", owner, repo, tok, num])
    (hnum : goAtoi num = some n) :
    newGitHubHandlerResolve raw = .ok (owner, repo, n) := by
  unfold newGitHubHandlerResolve
  rw [hsplit]
  simp [hnum]

/-- C2 witness: an `ssh` scheme, a non-GitHub host and an arbitrary fourth
segment all resolve. -/
theorem handler_url_exact_shape_resolves_witness :
    newGitHubHandlerResolve "ssh://example.com/owner/repo/foo/1" = .ok ("owner", "repo", 1) :=
  handler_url_exact_shape_resolves _ "owner" "repo" "foo" "1" 1 (by decide) (by decide)

/-- C8: the lenient URL resolver fails exactly on empty input, a path with
fewer than the minimum five segments, or a non-numeric identifier in the
PR-number position; at the three canonical failing inputs the three parse
errors produced are pairwise distinct values. -/
theorem parse_url_failure_conditions :
    (∀ raw : String,
      (∃ e, parseGitHubURL raw = .error e) ↔
        (raw = "" ∨ (goSplitSlash (goURLPath raw)).length < 5 ∨
         goAtoi ((goSplitSlash (goURLPath raw)).getD 4 "") = none)) ∧
    parseGitHubURL "" = .error (.badShape "") ∧
    parseGitHubURL "https://github.com/owner/repo"
        = .error (.badShape "https://github.com/owner/repo") ∧
    parseGitHubURL "https://github.com/owner/repo/pulls/foo"
        = .error (.badNumber "foo") ∧
    ParseErr.badShape "" ≠ ParseErr.badShape "https://github.com/owner/repo" ∧
    ParseErr.badShape "" ≠ ParseErr.badNumber "foo" ∧
    ParseErr.badShape "https://github.com/owner/repo" ≠ ParseErr.badNumber "foo" := by
  refine ⟨?_, rfl, rfl, rfl, by decide, by decide, by decide⟩
  intro raw
  simp only [parseGitHubURL]
  by_cases hlen : (goSplitSlash (goURLPath raw)).length < 5
  · rw [if_pos hlen]
    exact iff_of_true ⟨ParseErr.badShape raw, rfl⟩ (Or.inr (Or.inl hlen))
  · rw [if_neg hlen]
    cases hnum : goAtoi ((goSplitSlash (goURLPath raw)).getD 4 "") with
    | none =>
      exact iff_of_true ⟨ParseErr.badNumber _, rfl⟩ (Or.inr (Or.inr rfl))
    | some n =>
      constructor
      · rintro ⟨e, he⟩
        exact absurd he (by simp)
      · rintro (hraw | hl | hn)
        · subst hraw
          exact absurd (by decide : (goSplitSlash (goURLPath "")).length < 5) hlen
        · exact absurd hl hlen
        · exact absurd hn (by simp)

/-- C8 witness: a non-numeric PR-number segment makes the lenient resolver
fail. -/
theorem parse_url_failure_conditions_witness :
    ∃ e, parseGitHubURL "https://github.com/owner/repo/pulls/foo" = .error e :=
  (parse_url_failure_conditions.1 "https://github.com/owner/repo/pulls/foo").mpr
    (Or.inr (Or.inr (by decide)))

/-- C4: for every on-disk record and provider state, Upload replaces the
entire remote label set in exactly one `ReplaceLabels` call carrying the
literal `Text` list of the record's labels, in order, and the resulting
remote label set is exactly that list — in particular an empty (or nil)
on-disk label list clears all remote labels regardless of how many existed
before. -/
theorem upload_label_sync_total (pr : PullRequest) (st : GitHubState) :
    (uploadCalls pr st).filter Call.isReplaceLabels
        = [Call.replaceLabels ((pr.Labels.getD []).map (fun l => l.Text))] ∧
    (uploadState pr st).pr.labels = (pr.Labels.getD []).map (fun l => l.Text) := by
  constructor
  · rw [uploadCalls, upload_eq, List.filter_cons, if_pos (by rfl), List.filter_append]
    have h1 : (uploadSync pr st).1.filter Call.isReplaceLabels = [] := by
      apply List.filter_eq_nil.mpr
      intro c hc
      rcases syncComments_trace_forms noFail _ _ _ c hc with ⟨ec, _, rfl | ⟨b, u, rfl⟩⟩ <;>
        simp [Call.isReplaceLabels]
    have h2 : (uploadCreate pr st).1.filter Call.isReplaceLabels = [] := by
      unfold uploadCreate
      rw [createComments_noFail]
      apply List.filter_eq_nil.mpr
      intro c hc
      rcases List.mem_map.mp hc with ⟨p, _, rfl⟩
      simp [Call.isReplaceLabels]
    rw [h1, h2]
    rfl
  · rw [uploadState, upload_eq]
    have h3 := createComments_pr noFail (uploadSync pr st).2.2.1 (uploadSync pr st).2.1
    unfold uploadCreate
    rw [h3]
    unfold uploadSync
    rw [syncComments_pr]
    rfl

/-- C10: the generic record produced by Download carries non-nil `Comments`
and `Labels` slices (`some`, serialized as a JSON array) whose lengths
equal the provider's comment and label counts; zero provider comments or
labels yield `some []` (the empty array), never `none` (the nil slice /
JSON null). -/
theorem download_record_slices (st : GitHubState) (dir : String) (fs0 : FS) :
    (download st dir fs0).2.Comments.isSome = true ∧
    (download st dir fs0).2.Labels.isSome = true ∧
    ((download st dir fs0).2.Comments.getD []).length = st.comments.length ∧
    ((download st dir fs0).2.Labels.getD []).length = st.pr.labels.length ∧
    (st.comments = [] → (download st dir fs0).2.Comments = some []) ∧
    (st.pr.labels = [] → (download st dir fs0).2.Labels = some []) := by
  rw [download_record]
  refine ⟨rfl, rfl, by simp, by simp, ?_, ?_⟩
  · intro h; rw [h]; rfl
  · intro h; simp [h]

/-- C10 witness: a provider state with no comments and no labels downloads
to a record with empty — not nil — slices. -/
theorem download_record_slices_witness :
    (download
      { pr := { id := 1, headRepo := "hr", headBranch := "hb", headSHA := "h", baseRepo := "br", baseBranch := "bb", baseSHA := "b", labels := [] }
        comments := []
        nextID := 1
        createLogin := "bot" } "D" (fun _ => none)).2.Comments = some [] :=
  (download_record_slices _ "D" (fun _ => none)).2.2.2.2.1 rfl

theorem upload_creates_from_unmatched (pr : PullRequest) (st : GitHubState) :
    ∀ b, Call.createComment b ∈ uploadCalls pr st →
      ∃ c ∈ pr.Comments.getD [], c.Text = b ∧ ∀ e ∈ st.comments, c.ID ≠ e.id := by
  intro b hb
  rw [uploadCalls, upload_eq] at hb
  rcases List.mem_cons.mp hb with he | hb'
  · exact absurd he (by simp)
  rcases List.mem_append.mp hb' with hbs | hbc
  · rcases syncComments_trace_forms noFail _ _ _ _ hbs with ⟨ec, _, h | ⟨x, y, h⟩⟩ <;>
      exact absurd h (by simp)
  · unfold uploadCreate at hbc
    rw [createComments_noFail] at hbc
    rcases List.mem_map.mp hbc with ⟨p, hp, he⟩
    have hrem : (uploadSync pr st).2.2.1 =
        (applyCall st (Call.replaceLabels (desiredLabelNames pr))).comments.foldl
          (fun m ec => eraseDesired m ec.id) (buildDesired (pr.Comments.getD [])) := by
      unfold uploadSync
      exact syncComments_remaining _ _ _
    rw [hrem] at hp
    rcases mem_foldl_eraseDesired _ _ _ hp with ⟨hpd, hids⟩
    rcases mem_buildDesired hpd with ⟨hkey, hmem⟩
    refine ⟨p.2, hmem, by simpa using he, ?_⟩
    intro e hee
    rw [← hkey]
    exact hids e hee

/-- C1 counterexample: an on-disk record with two distinct zero-ID comments
(texts "a" and "b") against an empty provider comment list yields exactly
one create call — for the second comment only — not one create per comment:
the zero-ID comments collide in the ID-keyed desired mapping. -/
theorem upload_two_new_comments_cex :
    (uploadCalls
      { type' := "github"
        ID := 1
        Head := none
        Base := none
        Comments := some [{ Text := "a", Author := "", ID := 0, Raw := "" }, { Text := "b", Author := "", ID := 0, Raw := "" }]
        Labels := some []
        Raw := "" }
      { pr := { id := 1, headRepo := "", headBranch := "", headSHA := "", baseRepo := "", baseBranch := "", baseSHA := "", labels := [] }
        comments := []
        nextID := 1
        createLogin := "bot" })
      = [Call.replaceLabels [], Call.createComment "b"] ∧
    ¬((uploadCalls
      { type' := "github"
        ID := 1
        Head := none
        Base := none
        Comments := some [{ Text := "a", Author := "", ID := 0, Raw := "" }, { Text := "b", Author := "", ID := 0, Raw := "" }]
        Labels := some []
        Raw := "" }
      { pr := { id := 1, headRepo := "", headBranch := "", headSHA := "", baseRepo := "", baseBranch := "", baseSHA := "", labels := [] }
        comments := []
        nextID := 1
        createLogin := "bot" }).countP Call.isCreate = 2) := by
  refine ⟨rfl, by decide⟩

theorem find?_map_overwrite_self (k : Int) (v : Comment) :
    ∀ m : List (Int × Comment), (∃ q ∈ m, q.1 = k) →
      (m.map (fun p => if p.1 = k then (k, v) else p)).find? (fun p => p.1 = k)
        = some (k, v)
  | [], h => by
    rcases h with ⟨q, hq, _⟩
    exact absurd hq (List.not_mem_nil q)
  | p :: rest, h => by
    by_cases hp : p.1 = k
    · simp only [List.map_cons]
      rw [if_pos hp, List.find?_cons_of_pos _ (by simp)]
    · simp only [List.map_cons]
      rw [if_neg hp, List.find?_cons_of_neg _ (by simpa using hp)]
      apply find?_map_overwrite_self k v rest
      rcases h with ⟨q, hq, hqk⟩
      rcases List.mem_cons.mp hq with rfl | hqr
      · exact absurd hqk hp
      · exact ⟨q, hqr, hqk⟩

theorem find?_map_overwrite_ne {i j : Int} (v : Comment) (hij : i ≠ j) :
    ∀ m : List (Int × Comment),
      (m.map (fun p => if p.1 = j then (j, v) else p)).find? (fun p => p.1 = i)
        = m.find? (fun p => p.1 = i)
  | [] => rfl
  | p :: rest => by
    by_cases hp : p.1 = j
    · simp only [List.map_cons]
      rw [if_pos hp, List.find?_cons_of_neg _ (by simpa using fun h => hij h.symm)]
      rw [List.find?_cons_of_neg _ (by simpa using fun h : p.1 = i => hij (h ▸ hp))]
      exact find?_map_overwrite_ne v hij rest
    · simp only [List.map_cons]
      rw [if_neg hp]
      by_cases hpi : p.1 = i
      · rw [List.find?_cons_of_pos _ (by simpa using hpi),
          List.find?_cons_of_pos _ (by simpa using hpi)]
      · rw [List.find?_cons_of_neg _ (by simpa using hpi),
          List.find?_cons_of_neg _ (by simpa using hpi)]
        exact find?_map_overwrite_ne v hij rest

theorem find?_append_singleton (k : Int) (v : Comment) :
    ∀ m : List (Int × Comment), (∀ q ∈ m, q.1 ≠ k) →
      (m ++ [(k, v)]).find? (fun p => p.1 = k) = some (k, v)
  | [], _ => by
    rw [List.nil_append, List.find?_cons_of_pos _ (by simp)]
  | p :: rest, h => by
    rw [List.cons_append,
      List.find?_cons_of_neg _ (by simpa using h p (List.mem_cons_self _ _))]
    exact find?_append_singleton k v rest (fun q hq => h q (List.mem_cons_of_mem _ hq))

theorem find?_append_singleton_ne {i j : Int} (v : Comment) (hij : i ≠ j) :
    ∀ m : List (Int × Comment),
      (m ++ [(j, v)]).find? (fun p => p.1 = i) = m.find? (fun p => p.1 = i)
  | [] => by
    rw [List.nil_append, List.find?_cons_of_neg _ (by simpa using fun h => hij h.symm)]
  | p :: rest => by
    by_cases hpi : p.1 = i
    · rw [List.cons_append, List.find?_cons_of_pos _ (by simpa using hpi),
        List.find?_cons_of_pos _ (by simpa using hpi)]
    · rw [List.cons_append, List.find?_cons_of_neg _ (by simpa using hpi),
        List.find?_cons_of_neg _ (by simpa using hpi)]
      exact find?_append_singleton_ne v hij rest

theorem lookupDesired_insertOverwrite_self (m : List (Int × Comment)) (k : Int)
    (v : Comment) : lookupDesired (insertOverwrite m k v) k = some v := by
  unfold lookupDesired insertOverwrite
  split
  case isTrue h =>
    rcases List.any_eq_true.mp h with ⟨q, hq, hqk⟩
    rw [find?_map_overwrite_self k v m ⟨q, hq, of_decide_eq_true hqk⟩]
    rfl
  case isFalse h =>
    have hall : ∀ q ∈ m, q.1 ≠ k := by
      intro q hq hqk
      exact h (List.any_eq_true.mpr ⟨q, hq, decide_eq_true hqk⟩)
    rw [find?_append_singleton k v m hall]
    rfl

theorem lookupDesired_insertOverwrite_ne (m : List (Int × Comment)) {i j : Int}
    (v : Comment) (hij : i ≠ j) :
    lookupDesired (insertOverwrite m j v) i = lookupDesired m i := by
  unfold lookupDesired insertOverwrite
  split
  · rw [find?_map_overwrite_ne v hij m]
  · rw [find?_append_singleton_ne v hij m]

theorem getLast?_cons_or {α : Type} (a : α) :
    ∀ l : List α, (a :: l).getLast? = l.getLast?.or (some a)
  | [] => rfl
  | b :: bs => by
    rw [List.getLast?_cons_cons, getLast?_cons_or b bs, Option.or_assoc]
    rfl

/-- The value a Go map holds at key `k` after inserting a comment list is
the last comment of the list whose `ID` is `k` (last write wins), falling
back to the prior binding. -/
theorem lookupDesired_foldl_insertOverwrite (k : Int) :
    ∀ (cs : List Comment) (m : List (Int × Comment)),
      lookupDesired (cs.foldl (fun m c => insertOverwrite m c.ID c) m) k
        = ((cs.filter (fun c => c.ID = k)).getLast?).or (lookupDesired m k)
  | [], m => by
    rw [List.foldl_nil, List.filter_nil]
    rfl
  | c :: rest, m => by
    rw [List.foldl_cons, lookupDesired_foldl_insertOverwrite k rest (insertOverwrite m c.ID c)]
    by_cases hk : c.ID = k
    · rw [List.filter_cons, if_pos (by simpa using hk), getLast?_cons_or]
      have hl : lookupDesired (insertOverwrite m c.ID c) k = some c := by
        rw [← hk]
        exact lookupDesired_insertOverwrite_self m c.ID c
      rw [hl, Option.or_assoc]
      rfl
    · rw [List.filter_cons, if_neg (by simpa using hk)]
      rw [lookupDesired_insertOverwrite_ne m c (fun h => hk h.symm)]

theorem insertOverwrite_keys_nodup {m : List (Int × Comment)} (k : Int) (v : Comment)
    (h : (m.map (fun p => p.1)).Nodup) :
    ((insertOverwrite m k v).map (fun p => p.1)).Nodup := by
  unfold insertOverwrite
  split
  case isTrue _ =>
    have hkeys : ((m.map (fun p => if p.1 = k then (k, v) else p)).map (fun p => p.1))
        = m.map (fun p => p.1) := by
      rw [List.map_map]
      apply List.map_congr_left
      intro p _
      by_cases hp : p.1 = k
      · simp [hp]
      · simp [hp]
    rw [hkeys]
    exact h
  case isFalse hfalse =>
    rw [List.map_append]
    apply List.Nodup.append h (by simp)
    intro a ha hb
    have hak : a = k := by simpa using hb
    subst hak
    rcases List.mem_map.mp ha with ⟨q, hq, hqk⟩
    exact hfalse (List.any_eq_true.mpr ⟨q, hq, decide_eq_true hqk⟩)

theorem foldl_insertOverwrite_keys_nodup :
    ∀ (cs : List Comment) (m : List (Int × Comment)),
      ((m.map (fun p => p.1)).Nodup) →
      ((cs.foldl (fun m c => insertOverwrite m c.ID c) m).map (fun p => p.1)).Nodup
  | [], _, h => h
  | c :: rest, m, h =>
    foldl_insertOverwrite_keys_nodup rest _ (insertOverwrite_keys_nodup c.ID c h)

/-- A Go map never holds two bindings for one key: the desired-comment
mapping has pairwise-distinct keys. -/
theorem buildDesired_keys_nodup (cs : List Comment) :
    ((buildDesired cs).map (fun p => p.1)).Nodup :=
  foldl_insertOverwrite_keys_nodup cs [] (by simp)

theorem foldl_eraseDesired_sublist :
    ∀ (ex : List GitHubComment) (d : List (Int × Comment)),
      (ex.foldl (fun m ec => eraseDesired m ec.id) d).Sublist d
  | [], d => List.Sublist.refl d
  | ec :: rest, d =>
    (foldl_eraseDesired_sublist rest (eraseDesired d ec.id)).trans
      (show (eraseDesired d ec.id).Sublist d from List.filter_sublist d)

theorem mem_foldl_eraseDesired_of :
    ∀ (ex : List GitHubComment) (d : List (Int × Comment)) (p : Int × Comment),
      p ∈ d → (∀ ec ∈ ex, p.1 ≠ ec.id) →
      p ∈ ex.foldl (fun m ec => eraseDesired m ec.id) d
  | [], _, _, hp, _ => hp
  | ec :: rest, d, p, hp, hne =>
    mem_foldl_eraseDesired_of rest _ p
      (List.mem_filter.mpr ⟨hp, by simpa using hne ec (List.mem_cons_self _ _)⟩)
      (fun ec' hec' => hne ec' (List.mem_cons_of_mem _ hec'))

theorem mem_of_lookupDesired {m : List (Int × Comment)} {k : Int} {v : Comment}
    (h : lookupDesired m k = some v) : (k, v) ∈ m := by
  unfold lookupDesired at h
  rcases Option.map_eq_some'.mp h with ⟨p, hfind, hp2⟩
  have hp1 : p.1 = k := by simpa using List.find?_some hfind
  have hmem := List.mem_of_find?_eq_some hfind
  have hpe : p = (k, v) := by
    rcases p with ⟨p1, p2⟩
    simp only at hp1 hp2
    rw [hp1, hp2]
  rw [← hpe]
  exact hmem

theorem nodup_all_eq_singleton {α : Type} {l : List α} {x : α} (hnd : l.Nodup)
    (hx : x ∈ l) (hall : ∀ y ∈ l, y = x) : l = [x] := by
  cases l with
  | nil => exact absurd hx (List.not_mem_nil x)
  | cons a rest =>
    have ha := hall a (List.mem_cons_self _ _)
    subst ha
    cases rest with
    | nil => rfl
    | cons b rest2 =>
      exfalso
      have hb := hall b (List.mem_cons_of_mem _ (List.mem_cons_self _ _))
      rcases List.nodup_cons.mp hnd with ⟨hna, _⟩
      apply hna
      rw [← hb]
      exact List.mem_cons_self _ _

/-- C1 (amended): for every provider state none of whose comments carries
the sentinel identity 0 and every on-disk record containing exactly two
zero-ID comments — possibly among other comments, each of which carries
the identity of some existing provider comment, as nonzero IDs are
output-only and written by Download from existing comments — the two
zero-ID comments collide in the ID-keyed desired mapping, so Upload
issues exactly one create call, carrying the text of the record's last
zero-ID comment, rather than one create per zero-ID comment; each create
call appends exactly one remote comment. -/
theorem upload_two_new_comments_single_create
    (pr : PullRequest) (st : GitHubState) (c1 c2 : Comment)
    (hz : (pr.Comments.getD []).filter (fun c => c.ID = 0) = [c1, c2])
    (h0 : ∀ e ∈ st.comments, e.id ≠ 0)
    (hmatch : ∀ dc ∈ pr.Comments.getD [], dc.ID ≠ 0 → ∃ e ∈ st.comments, e.id = dc.ID) :
    (uploadCalls pr st).filter Call.isCreate = [Call.createComment c2.Text] ∧
    (∀ (s : GitHubState) (b : String),
      (applyCall s (Call.createComment b)).comments
        = s.comments ++ [{ id := s.nextID, author := s.createLogin, body := b }]) := by
  refine ⟨?_, fun s b => rfl⟩
  have hlk : lookupDesired (buildDesired (pr.Comments.getD [])) 0 = some c2 := by
    have h := lookupDesired_foldl_insertOverwrite 0 (pr.Comments.getD []) []
    rw [hz] at h
    rw [show buildDesired (pr.Comments.getD [])
        = (pr.Comments.getD []).foldl (fun m c => insertOverwrite m c.ID c) [] from rfl]
    rw [h]
    rfl
  have hmem0 : ((0 : Int), c2) ∈ buildDesired (pr.Comments.getD []) :=
    mem_of_lookupDesired hlk
  have hrem : (uploadSync pr st).2.2.1 =
      (applyCall st (Call.replaceLabels (desiredLabelNames pr))).comments.foldl
        (fun m ec => eraseDesired m ec.id) (buildDesired (pr.Comments.getD [])) := by
    unfold uploadSync
    exact syncComments_remaining _ _ _
  have hsurv : ((0 : Int), c2) ∈ (uploadSync pr st).2.2.1 := by
    rw [hrem]
    exact mem_foldl_eraseDesired_of _ _ _ hmem0
      (fun ec hec hh => h0 ec hec hh.symm)
  have hnk : (((uploadSync pr st).2.2.1).map (fun p => p.1)).Nodup := by
    rw [hrem]
    exact List.Nodup.sublist (List.Sublist.map _ (foldl_eraseDesired_sublist _ _))
      (buildDesired_keys_nodup _)
  have hall : ∀ p ∈ (uploadSync pr st).2.2.1, p = ((0 : Int), c2) := by
    intro p hp
    have hp2 := hp
    rw [hrem] at hp2
    rcases mem_foldl_eraseDesired _ _ _ hp2 with ⟨hpd, hpne⟩
    rcases mem_buildDesired hpd with ⟨hk, hmem⟩
    have hp0 : p.1 = 0 := by
      by_contra hne
      rcases hmatch p.2 hmem (fun hh => hne (hk.trans hh)) with ⟨e, he, hei⟩
      exact hpne e he (hk.trans hei.symm)
    exact List.inj_on_of_nodup_map hnk hp hsurv (by rw [hp0])
  have hleft : (uploadSync pr st).2.2.1 = [((0 : Int), c2)] :=
    nodup_all_eq_singleton (List.Nodup.of_map _ hnk) hsurv hall
  rw [uploadCalls, upload_eq, List.filter_cons, if_neg (by simp [Call.isCreate]),
    List.filter_append]
  have hs : (uploadSync pr st).1.filter Call.isCreate = [] := by
    apply List.filter_eq_nil.mpr
    intro c hc
    rcases syncComments_trace_forms noFail _ _ _ c hc with ⟨ec, _, rfl | ⟨b, u, rfl⟩⟩ <;>
      simp [Call.isCreate]
  have hcrt : (uploadCreate pr st).1 = [Call.createComment c2.Text] := by
    unfold uploadCreate
    rw [createComments_noFail, hleft]
    rfl
  rw [hs, hcrt]
  rfl

/-- C1 witness: the amended claim at a record that carries a matched
nonzero-ID comment alongside the two zero-ID comments, against a provider
that has that existing comment. -/
theorem upload_two_new_comments_single_create_witness :
    (uploadCalls
      { type' := "github"
        ID := 1
        Head := none
        Base := none
        Comments := some [{ Text := "x", Author := "u", ID := 5, Raw := "" }, { Text := "a", Author := "", ID := 0, Raw := "" }, { Text := "b", Author := "", ID := 0, Raw := "" }]
        Labels := some []
        Raw := "" }
      { pr := { id := 1, headRepo := "", headBranch := "", headSHA := "", baseRepo := "", baseBranch := "", baseSHA := "", labels := [] }
        comments := [{ id := 5, author := "u", body := "x" }]
        nextID := 6
        createLogin := "bot" }).filter Call.isCreate = [Call.createComment "b"] :=
  (upload_two_new_comments_single_create _ _
    { Text := "a", Author := "", ID := 0, Raw := "" }
    { Text := "b", Author := "", ID := 0, Raw := "" }
    (by decide) (by decide) (by decide)).1

/-- C5: for every provider state with distinct comment identities and every
on-disk record with distinct comment identities: (1) each existing provider
comment whose ID is absent from the record receives exactly one delete
call; (2) no delete or edit call is issued for an existing comment whose ID
is present in the record with unchanged text. -/
theorem upload_comment_delete_exact (pr : PullRequest) (st : GitHubState)
    (hndE : (st.comments.map (fun ec => ec.id)).Nodup)
    (hndD : ((pr.Comments.getD []).map (fun c => c.ID)).Nodup) :
    (∀ ec ∈ st.comments, (∀ dc ∈ pr.Comments.getD [], dc.ID ≠ ec.id) →
      (uploadCalls pr st).count (Call.deleteComment ec.id) = 1) ∧
    (∀ ec ∈ st.comments, ∀ dc ∈ pr.Comments.getD [], dc.ID = ec.id → dc.Text = ec.body →
      Call.deleteComment ec.id ∉ uploadCalls pr st ∧
      (∀ b u, Call.editComment ec.id b u ∉ uploadCalls pr st)) := by
  constructor
  · intro ec hec habs
    have htouch := uploadCalls_touching ec.id pr st hndE
    rw [find?_id_self hndE hec, lookupDesired_buildDesired_eq_none.mpr habs] at htouch
    calc (uploadCalls pr st).count (Call.deleteComment ec.id)
        = ((uploadCalls pr st).filter (Call.touches ec.id)).count (Call.deleteComment ec.id) :=
          (List.count_filter (by simp [Call.touches])).symm
      _ = 1 := by rw [htouch]; simp
  · intro ec hec dc hdc hid htext
    have htouch := uploadCalls_touching ec.id pr st hndE
    have hlk : lookupDesired (buildDesired (pr.Comments.getD [])) ec.id = some dc := by
      rw [← hid]
      exact lookupDesired_buildDesired_self hndD hdc
    rw [find?_id_self hndE hec, hlk] at htouch
    dsimp only at htouch
    rw [if_neg (by simp [htext])] at htouch
    constructor
    · intro hmem
      have : Call.deleteComment ec.id ∈ (uploadCalls pr st).filter (Call.touches ec.id) :=
        List.mem_filter.mpr ⟨hmem, by simp [Call.touches]⟩
      rw [htouch] at this
      exact absurd this (List.not_mem_nil _)
    · intro b u hmem
      have : Call.editComment ec.id b u ∈ (uploadCalls pr st).filter (Call.touches ec.id) :=
        List.mem_filter.mpr ⟨hmem, by simp [Call.touches]⟩
      rw [htouch] at this
      exact absurd this (List.not_mem_nil _)

/-- C5 witness: deleting the only existing comment (record lists no
comment with its ID) issues exactly one delete call for it, and an
untouched comment receives no call. -/
theorem upload_comment_delete_exact_witness :
    (uploadCalls
      { type' := "github"
        ID := 1
        Head := none
        Base := none
        Comments := some []
        Labels := some []
        Raw := "" }
      { pr := { id := 1, headRepo := "", headBranch := "", headSHA := "", baseRepo := "", baseBranch := "", baseSHA := "", labels := [] }
        comments := [{ id := 5, author := "u", body := "hello" }]
        nextID := 6
        createLogin := "bot" }).count (Call.deleteComment 5) = 1 :=
  (upload_comment_delete_exact _ _ (by decide) (by decide)).1
    { id := 5, author := "u", body := "hello" } (by decide) (by decide)

/-- C6: for every provider state and on-disk record with distinct comment
identities, and every existing provider comment whose ID is present in the
record: if the desired text differs from the current body, Upload issues
exactly one edit call for that ID, carrying the new body and the existing
comment's user (identity preserved, not overwritten), with no delete call
for that ID and with every create call originating from a record comment
whose ID matches no existing comment; if the text is unchanged, no delete
or edit call at all is issued for that ID.  Applying an edit call changes
only bodies: remote authors and identities are untouched. -/
theorem upload_comment_update_exact (pr : PullRequest) (st : GitHubState)
    (hndE : (st.comments.map (fun ec => ec.id)).Nodup)
    (hndD : ((pr.Comments.getD []).map (fun c => c.ID)).Nodup) :
    (∀ ec ∈ st.comments, ∀ dc ∈ pr.Comments.getD [], dc.ID = ec.id →
      (dc.Text ≠ ec.body →
        (uploadCalls pr st).count (Call.editComment ec.id dc.Text ec.author) = 1 ∧
        (∀ b u, Call.editComment ec.id b u ∈ uploadCalls pr st →
          b = dc.Text ∧ u = ec.author) ∧
        Call.deleteComment ec.id ∉ uploadCalls pr st ∧
        (∀ b, Call.createComment b ∈ uploadCalls pr st →
          ∃ c ∈ pr.Comments.getD [], c.Text = b ∧ ∀ e ∈ st.comments, c.ID ≠ e.id)) ∧
      (dc.Text = ec.body →
        Call.deleteComment ec.id ∉ uploadCalls pr st ∧
        (∀ b u, Call.editComment ec.id b u ∉ uploadCalls pr st))) ∧
    (∀ (s : GitHubState) (i : Int) (b u : String),
      ((applyCall s (Call.editComment i b u)).comments.map (fun c => c.author))
          = s.comments.map (fun c => c.author) ∧
      ((applyCall s (Call.editComment i b u)).comments.map (fun c => c.id))
          = s.comments.map (fun c => c.id)) := by
  constructor
  · intro ec hec dc hdc hid
    have hlk : lookupDesired (buildDesired (pr.Comments.getD [])) ec.id = some dc := by
      rw [← hid]
      exact lookupDesired_buildDesired_self hndD hdc
    constructor
    · intro htext
      have htouch := uploadCalls_touching ec.id pr st hndE
      rw [find?_id_self hndE hec, hlk] at htouch
      dsimp only at htouch
      rw [if_pos htext] at htouch
      refine ⟨?_, ?_, ?_, upload_creates_from_unmatched pr st⟩
      · calc (uploadCalls pr st).count (Call.editComment ec.id dc.Text ec.author)
            = ((uploadCalls pr st).filter (Call.touches ec.id)).count
                (Call.editComment ec.id dc.Text ec.author) :=
              (List.count_filter (by simp [Call.touches])).symm
          _ = 1 := by rw [htouch]; simp
      · intro b u hmem
        have hm : Call.editComment ec.id b u ∈ (uploadCalls pr st).filter (Call.touches ec.id) :=
          List.mem_filter.mpr ⟨hmem, by simp [Call.touches]⟩
        rw [htouch] at hm
        have he := List.mem_singleton.mp hm
        simp only [Call.editComment.injEq] at he
        exact ⟨he.2.1, he.2.2⟩
      · intro hmem
        have hm : Call.deleteComment ec.id ∈ (uploadCalls pr st).filter (Call.touches ec.id) :=
          List.mem_filter.mpr ⟨hmem, by simp [Call.touches]⟩
        rw [htouch] at hm
        exact absurd (List.mem_singleton.mp hm) (by simp)
    · intro htext
      have htouch := uploadCalls_touching ec.id pr st hndE
      rw [find?_id_self hndE hec, hlk] at htouch
      dsimp only at htouch
      rw [if_neg (by simp [htext])] at htouch
      constructor
      · intro hmem
        have hm : Call.deleteComment ec.id ∈ (uploadCalls pr st).filter (Call.touches ec.id) :=
          List.mem_filter.mpr ⟨hmem, by simp [Call.touches]⟩
        rw [htouch] at hm
        exact absurd hm (List.not_mem_nil _)
      · intro b u hmem
        have hm : Call.editComment ec.id b u ∈ (uploadCalls pr st).filter (Call.touches ec.id) :=
          List.mem_filter.mpr ⟨hmem, by simp [Call.touches]⟩
        rw [htouch] at hm
        exact absurd hm (List.not_mem_nil _)
  · intro s i b u
    constructor
    · dsimp only [applyCall]
      rw [List.map_map]
      apply List.map_congr_left
      intro c _
      by_cases h : c.id = i <;> simp [h]
    · dsimp only [applyCall]
      rw [List.map_map]
      apply List.map_congr_left
      intro c _
      by_cases h : c.id = i <;> simp [h]

/-- C6 witness: editing the text of the only existing comment issues
exactly one edit call with the new body and the existing author. -/
theorem upload_comment_update_exact_witness :
    (uploadCalls
      { type' := "github"
        ID := 1
        Head := none
        Base := none
        Comments := some [{ Text := "HELLO", Author := "u", ID := 5, Raw := "" }]
        Labels := some []
        Raw := "" }
      { pr := { id := 1, headRepo := "", headBranch := "", headSHA := "", baseRepo := "", baseBranch := "", baseSHA := "", labels := [] }
        comments := [{ id := 5, author := "u", body := "hello" }]
        nextID := 6
        createLogin := "bot" }).count (Call.editComment 5 "HELLO" "u") = 1 :=
  (((upload_comment_update_exact _ _ (by decide) (by decide)).1
    { id := 5, author := "u", body := "hello" } (by decide)
    { Text := "HELLO", Author := "u", ID := 5, Raw := "" } (by decide) (by decide)).1
      (by decide)).1

/-- C3: downloading a provider state (with distinct comment identities)
into a directory and immediately uploading from that directory without
edits issues exactly one call — a label replace whose payload is the
original label list — and leaves the provider state unchanged; no comment
create, edit or delete is issued. -/
theorem download_upload_roundtrip (st : GitHubState) (dir : String) (fs0 : FS)
    (hnd : (st.comments.map (fun e => e.id)).Nodup) :
    uploadFromDir (download st dir fs0).1 dir st
      = some ([Call.replaceLabels st.pr.labels], st, none) := by
  have hL : desiredLabelNames (download st dir fs0).2 = st.pr.labels := by
    rw [download_record]
    simp only [desiredLabelNames, Option.getD_some, List.map_map]
    have hcomp : ((fun l => l.Text) ∘ fun l => ({ Text := l } : Label)) = fun l => l := rfl
    rw [hcomp, List.map_id']
  have hB : buildDesired ((download st dir fs0).2.Comments.getD [])
      = st.comments.map
          (fun e => (e.id, downloadedComment (fun c => commentPath dir c.id) e)) := by
    rw [download_record]
    simp only [Option.getD_some]
    rw [buildDesired_eq_of_nodup (by simpa [List.map_map, downloadedComment] using hnd)]
    rw [List.map_map]
    rfl
  unfold uploadFromDir
  rw [download_fs_generic]
  refine congrArg some ?_
  rw [upload_eq]
  unfold uploadCreate uploadSync
  rw [hL]
  have hst1 : applyCall st (Call.replaceLabels st.pr.labels) = st := rfl
  rw [hst1, hB, syncComments_matchAll _ _ _ hnd]
  rfl

/-- C3 witness: the round trip at a concrete provider state with two
comments and two labels. -/
theorem download_upload_roundtrip_witness :
    uploadFromDir
      (download
        { pr := { id := 1, headRepo := "hr", headBranch := "hb", headSHA := "h", baseRepo := "br", baseBranch := "bb", baseSHA := "b", labels := ["l1", "l2"] }
          comments := [{ id := 1, author := "u1", body := "hello" }, { id := 2, author := "u2", body := "world" }]
          nextID := 3
          createLogin := "bot" } "D" (fun _ => none)).1 "D"
      { pr := { id := 1, headRepo := "hr", headBranch := "hb", headSHA := "h", baseRepo := "br", baseBranch := "bb", baseSHA := "b", labels := ["l1", "l2"] }
        comments := [{ id := 1, author := "u1", body := "hello" }, { id := 2, author := "u2", body := "world" }]
        nextID := 3
        createLogin := "bot" }
      = some ([Call.replaceLabels ["l1", "l2"]],
        { pr := { id := 1, headRepo := "hr", headBranch := "hb", headSHA := "h", baseRepo := "br", baseBranch := "bb", baseSHA := "b", labels := ["l1", "l2"] }
          comments := [{ id := 1, author := "u1", body := "hello" }, { id := 2, author := "u2", body := "world" }]
          nextID := 3
          createLogin := "bot" }, none) :=
  download_upload_roundtrip _ "D" (fun _ => none) (by decide)

/-- C7: after a successful Download into `dir` (provider comment
identities rendering to distinct file names), the generic record is at
`dir/pr.json`; the verbatim PR payload is at `dir/github/pr.json`, which is
exactly the path in the record's `Raw` field, and opening it yields the
provider's payload; each downloaded comment's `Raw` field is its
per-comment path `dir/github/comments/<id>.json`, and opening that path
yields exactly the provider's comment. -/
theorem download_provenance (st : GitHubState) (dir : String) (fs0 : FS)
    (hnd : (st.comments.map (fun c => toString c.id)).Nodup) :
    (download st dir fs0).1 (goJoin dir "pr.json")
        = some (FileContent.genericPR (download st dir fs0).2) ∧
    (download st dir fs0).2.Raw = goJoin (goJoin dir "github") "pr.json" ∧
    (download st dir fs0).1 ((download st dir fs0).2.Raw)
        = some (FileContent.rawPR st.pr) ∧
    (download st dir fs0).2.Comments
        = some (st.comments.map (downloadedComment (fun c => commentPath dir c.id))) ∧
    (∀ dc ∈ (download st dir fs0).2.Comments.getD [], dc.Raw = commentPath dir dc.ID) ∧
    (∀ c ∈ st.comments,
      (download st dir fs0).1 (commentPath dir c.id) = some (FileContent.rawComment c)) := by
  refine ⟨download_fs_generic st dir fs0, ?_, ?_, ?_, ?_, ?_⟩
  · rw [download_record]
  · rw [download_record]
    exact download_fs_rawPR st dir fs0
  · rw [download_record]
  · intro dc hdc
    rw [download_record] at hdc
    simp only [Option.getD_some] at hdc
    rcases List.mem_map.mp hdc with ⟨c, _, rfl⟩
    rfl
  · intro c hc
    exact download_fs_rawComment st dir fs0 hnd hc

/-- C7 witness: provenance of a concrete downloaded comment. -/
theorem download_provenance_witness :
    (download
      { pr := { id := 1, headRepo := "hr", headBranch := "hb", headSHA := "h", baseRepo := "br", baseBranch := "bb", baseSHA := "b", labels := [] }
        comments := [{ id := 1, author := "u", body := "hi" }]
        nextID := 2
        createLogin := "bot" } "D" (fun _ => none)).1 (commentPath "D" 1)
      = some (FileContent.rawComment { id := 1, author := "u", body := "hi" }) :=
  (download_provenance _ "D" (fun _ => none) (by decide)).2.2.2.2.2
    { id := 1, author := "u", body := "hi" } (by decide)

/-- The delete/edit loop followed by the create loop, as run by `Upload`
under a failure oracle. -/
def uploadWithSync (fails : Call → Bool) (pr : PullRequest) (st : GitHubState) :
    List Call × GitHubState × List (Int × Comment) × Option Call :=
  syncComments fails (applyCall st (Call.replaceLabels (desiredLabelNames pr))).comments
    (buildDesired (pr.Comments.getD []))
    (applyCall st (Call.replaceLabels (desiredLabelNames pr)))

/-- The create loop of `Upload` under a failure oracle. -/
def uploadWithCreate (fails : Call → Bool) (pr : PullRequest) (st : GitHubState) :
    List Call × GitHubState × Option Call :=
  createComments fails (uploadWithSync fails pr st).2.2.1 (uploadWithSync fails pr st).2.1

theorem uploadWith_label_ok (fails : Call → Bool) (pr : PullRequest) (st : GitHubState)
    (hf0 : ¬fails (Call.replaceLabels (desiredLabelNames pr)) = true) :
    uploadWith fails pr st =
      match (uploadWithSync fails pr st).2.2.2 with
      | some e => (Call.replaceLabels (desiredLabelNames pr) :: (uploadWithSync fails pr st).1,
                   (uploadWithSync fails pr st).2.1, some e)
      | none => (Call.replaceLabels (desiredLabelNames pr) ::
                   ((uploadWithSync fails pr st).1 ++ (uploadWithCreate fails pr st).1),
                 (uploadWithCreate fails pr st).2.1, (uploadWithCreate fails pr st).2.2) := by
  unfold uploadWith uploadWithCreate uploadWithSync
  rw [if_neg hf0]
  rfl

/-- C9: under any failure oracle, if Upload's result is an error then the
failing call is the last call issued, every call issued before it
succeeded, the provider state reflects exactly the successfully issued
prefix (nothing is undone), and the reported error is the failing call
itself; in particular if the label-replace call fails the run issues only
that single call and no comment call at all. -/
theorem upload_failure_aborts (fails : Call → Bool) (pr : PullRequest) (st : GitHubState) :
    (∀ e, (uploadWith fails pr st).2.2 = some e →
      fails e = true ∧ ∃ pre, (uploadWith fails pr st).1 = pre ++ [e] ∧
        (∀ c ∈ pre, fails c = false) ∧
        (uploadWith fails pr st).2.1 = pre.foldl applyCall st) ∧
    (fails (Call.replaceLabels (desiredLabelNames pr)) = true →
      uploadWith fails pr st
        = ([Call.replaceLabels (desiredLabelNames pr)], st,
           some (Call.replaceLabels (desiredLabelNames pr)))) := by
  constructor
  · intro e he
    by_cases hf0 : fails (Call.replaceLabels (desiredLabelNames pr)) = true
    · have hU : uploadWith fails pr st
          = ([Call.replaceLabels (desiredLabelNames pr)], st,
             some (Call.replaceLabels (desiredLabelNames pr))) := by
        unfold uploadWith
        rw [if_pos hf0]
      rw [hU] at he ⊢
      have he' : Call.replaceLabels (desiredLabelNames pr) = e := by simpa using he
      subst he'
      exact ⟨hf0, [], rfl, fun c hc => absurd hc (List.not_mem_nil c), rfl⟩
    · revert he
      rw [uploadWith_label_ok fails pr st hf0]
      cases hr : (uploadWithSync fails pr st).2.2.2 with
      | some e' =>
        intro he
        have he2 : e' = e := by simpa using he
        subst he2
        obtain ⟨hfe, pre, htr, hpre, hstate⟩ := (syncComments_failure fails _ _ _).2 e' hr
        refine ⟨hfe, Call.replaceLabels (desiredLabelNames pr) :: pre, ?_, ?_, ?_⟩
        · show Call.replaceLabels (desiredLabelNames pr) :: (uploadWithSync fails pr st).1 = _
          rw [show (uploadWithSync fails pr st).1 = pre ++ [e'] from htr]
          rfl
        · intro c hc
          rcases List.mem_cons.mp hc with rfl | hc'
          · simpa using hf0
          · exact hpre c hc'
        · show (uploadWithSync fails pr st).2.1 = _
          rw [show (uploadWithSync fails pr st).2.1
              = pre.foldl applyCall (applyCall st (Call.replaceLabels (desiredLabelNames pr)))
              from hstate]
          rw [List.foldl_cons]
      | none =>
        intro he
        have he' : (uploadWithCreate fails pr st).2.2 = some e := by simpa using he
        obtain ⟨hsall, hsstate⟩ := (syncComments_failure fails _ _ _).1 hr
        obtain ⟨hfe, pre, htr, hpre, hstate⟩ := (createComments_failure fails _ _).2 e he'
        refine ⟨hfe, Call.replaceLabels (desiredLabelNames pr) ::
          ((uploadWithSync fails pr st).1 ++ pre), ?_, ?_, ?_⟩
        · show Call.replaceLabels (desiredLabelNames pr) ::
            ((uploadWithSync fails pr st).1 ++ (uploadWithCreate fails pr st).1) = _
          rw [show (uploadWithCreate fails pr st).1 = pre ++ [e] from htr]
          simp
        · intro c hc
          rcases List.mem_cons.mp hc with rfl | hc'
          · simpa using hf0
          rcases List.mem_append.mp hc' with hc1 | hc2
          · exact hsall c hc1
          · exact hpre c hc2
        · show (uploadWithCreate fails pr st).2.1 = _
          rw [show (uploadWithCreate fails pr st).2.1
              = pre.foldl applyCall (uploadWithSync fails pr st).2.1 from hstate]
          rw [show (uploadWithSync fails pr st).2.1
              = (uploadWithSync fails pr st).1.foldl applyCall
                  (applyCall st (Call.replaceLabels (desiredLabelNames pr)))
              from hsstate]
          rw [List.foldl_cons, List.foldl_append]
  · intro hf0
    unfold uploadWith
    rw [if_pos hf0]

/-- C9 witness: an oracle failing exactly the label-replace call makes
Upload issue that single call, fail with it, and leave the provider state
untouched. -/
theorem upload_failure_aborts_witness :
    uploadWith Call.isReplaceLabels
      { type' := "github"
        ID := 1
        Head := none
        Base := none
        Comments := some [{ Text := "x", Author := "", ID := 0, Raw := "" }]
        Labels := some []
        Raw := "" }
      { pr := { id := 1, headRepo := "", headBranch := "", headSHA := "", baseRepo := "", baseBranch := "", baseSHA := "", labels := ["z"] }
        comments := []
        nextID := 1
        createLogin := "bot" }
      = ([Call.replaceLabels []],
        { pr := { id := 1, headRepo := "", headBranch := "", headSHA := "", baseRepo := "", baseBranch := "", baseSHA := "", labels := ["z"] }
          comments := []
          nextID := 1
          createLogin := "bot" }, some (Call.replaceLabels [])) :=
  (upload_failure_aborts Call.isReplaceLabels _ _).2 (by decide)

end PRInit
